import Mathlib

/-!
Open-addressing hash table (`src/main.c`).

A shallow embedding of the hash table of `src/main.c` and the properties of
its operations.

Modelling choices.

* A C string (`char *`) is the list of its character codes, terminating NUL
  excluded.  `char` is a signed type on the usual targets, so codes are
  integers; `strcmp (a, b) == 0` is equality of the two lists.
* A bucket `ht->items[i]` is a pointer with three cases: `NULL`, the address
  of the shared sentinel `HT_DELETED_ITEM`, or the address of an item owned
  by the table.  These are the three constructors of `Slot`.
* An `int` is a 32-bit and a `long` a 64-bit two's complement integer, as on
  x86-64 Linux.  Values are mathematical integers kept in range: every `int`
  operation that can overflow is followed by `wrapInt` and every `long`
  operation by `wrapLong` (reduction modulo `2^32` and `2^64`).  `%` is the
  truncating remainder of C (`Int.tmod`).
* `pow (a, n)` returns a `double`.  It is taken to be the double nearest to
  the exact power (ties to even, 53 significant bits), and the conversion
  `(long)` of a double outside the range of `long` to give `LONG_MIN`, as the
  x86-64 conversion instruction does (`pow_long`).
* An access `ht->items[index]` outside the bucket array is undefined
  behaviour; the embedding reports it as `Outcome.outOfBounds`.
* Ownership is not modelled: `ht_new_item` (two `strdup`) yields the item
  `Slot.item key value`, and `ht_del_item` and `ht_del_hash_table` (`free`)
  have no counterpart.
* The three probing loops need not terminate.  Each takes a `fuel`, the
  number of buckets it may read, and reports `Outcome.outOfFuel` when the
  loop is still running after that many reads.
-/

set_option maxRecDepth 100000

namespace HashTable

/-- A C string: the character codes before the terminating NUL. -/
abbrev CString := List Int

/-- The character codes of a string literal. -/
def cstr (s : String) : CString := s.toList.map (fun c => (c.toNat : Int))

/-- A bucket of `items`: `NULL`, `&HT_DELETED_ITEM`, or a pointer to a live
`ht_item` with its key and value. -/
inductive Slot where
  | empty : Slot
  | deleted : Slot
  | item (key value : CString) : Slot
  deriving DecidableEq, Repr

/-- The struct `ht_hash_table`. -/
structure ht_hash_table where
  size : Int
  count : Int
  items : List Slot
  deriving DecidableEq, Repr

/-- Result of running an operation with a bound on the number of bucket
reads. -/
inductive Outcome (α : Type) where
  | done : α → Outcome α
  | outOfBounds : Outcome α
  | outOfFuel : Outcome α
  deriving DecidableEq, Repr

/-- The constant `HT_PRIME_1`. -/
def HT_PRIME_1 : Int := 127

/-- The constant `HT_PRIME_2`. -/
def HT_PRIME_2 : Int := 181

/-- The function `ht_new`: 53 buckets, all `NULL` (from `calloc`), count 0. -/
def ht_new : ht_hash_table :=
  { size := 53, count := 0, items := List.replicate 53 Slot.empty }

/-- The value of an integer as an `int`: 32 bits, two's complement. -/
def wrapInt (x : Int) : Int := (x + 2 ^ 31) % 2 ^ 32 - 2 ^ 31

/-- The value of an integer as a `long`: 64 bits, two's complement. -/
def wrapLong (x : Int) : Int := (x + 2 ^ 63) % 2 ^ 64 - 2 ^ 63

/-- The largest value of a `long`. -/
def LONG_MAX : Int := 2 ^ 63 - 1

/-- The number of low-order bits of `x` beyond its 53 leading bits (0 when `x`
has at most 53 bits); `fuel` bounds the number of halvings and `x` itself is
enough. -/
def excessBits : Nat → Nat → Nat
  | 0, _ => 0
  | fuel + 1, x => if x < 2 ^ 53 then 0 else excessBits fuel (x / 2) + 1

/-- The double nearest to the natural number `x`: `x` rounded to 53
significant bits, ties to even. -/
def roundDouble (x : Nat) : Nat :=
  let e := excessBits x x
  let q := x / 2 ^ e
  let r := x % 2 ^ e
  if e = 0 then x
  else if 2 ^ (e - 1) < r ∨ (r = 2 ^ (e - 1) ∧ q % 2 = 1) then (q + 1) * 2 ^ e
  else q * 2 ^ e

/-- The expression `(long)pow(a, n)` for integers `a` and `n >= 0`: the double
nearest to `a ^ n`, converted to `long`; a double outside the range of `long`
(infinity included) converts to `LONG_MIN`. -/
def pow_long (a : Int) (n : Nat) : Int :=
  let d := (a ^ n).sign * (roundDouble (a ^ n).natAbs : Int)
  if -2 ^ 63 ≤ d ∧ d < 2 ^ 63 then d else -2 ^ 63

/-- The loop of `ht_hash` on the `long` accumulator `hash`.  The list holds
`s[i], s[i+1], ...`, so that `len_s - (i+1)` is the length of its tail. -/
def ht_hash_loop (a m : Int) : CString → Int → Int
  | [], hash => hash
  | c :: rest, hash =>
    ht_hash_loop a m rest
      (Int.tmod (wrapLong (hash + wrapLong (pow_long a rest.length * c))) m)

/-- The function `ht_hash`; the result is the accumulator converted to
`int`. -/
def ht_hash (s : CString) (a m : Int) : Int := wrapInt (ht_hash_loop a m s 0)

/-- The function `ht_get_hash`.  The parameter `attempt` is an `int`: the
loops pass the number of the probe, which their counter `i` holds as
`wrapInt attempt`. -/
def ht_get_hash (s : CString) (num_buckets attempt : Int) : Int :=
  let hash_a := ht_hash s HT_PRIME_1 num_buckets
  let hash_b := ht_hash s HT_PRIME_2 num_buckets
  Int.tmod (wrapInt (hash_a + wrapInt (wrapInt attempt * wrapInt (hash_b + 1))))
    num_buckets

/-- The read `items[index]`; `none` when `index` is outside the array. -/
def readSlot (items : List Slot) (index : Int) : Option Slot :=
  if 0 ≤ index then items[index.toNat]? else none

/-- The write `items[index] = s`, performed only after a successful read of
the same bucket. -/
def writeSlot (items : List Slot) (index : Int) (s : Slot) : List Slot :=
  items.set index.toNat s

/-- The loop of `ht_insert`.  `attempt` is the probe number of the bucket held
in `cur_item` at the loop head: the C counter `i` is `attempt + 1` and `index`
is `ht_get_hash (key, ht->size, attempt)`.  `ht->count++` is an `int`
increment. -/
def ht_insert_loop (key value : CString) :
    Nat → ht_hash_table → Nat → Outcome ht_hash_table
  | 0, _, _ => Outcome.outOfFuel
  | fuel + 1, ht, attempt =>
    let index := ht_get_hash key ht.size attempt
    match readSlot ht.items index with
    | none => Outcome.outOfBounds
    | some Slot.empty =>
      Outcome.done { ht with items := writeSlot ht.items index (Slot.item key value),
                             count := wrapInt (ht.count + 1) }
    | some Slot.deleted => ht_insert_loop key value fuel ht (attempt + 1)
    | some (Slot.item k _) =>
      if k = key then
        Outcome.done { ht with items := writeSlot ht.items index (Slot.item key value) }
      else ht_insert_loop key value fuel ht (attempt + 1)

/-- The function `ht_insert`. -/
def ht_insert (fuel : Nat) (ht : ht_hash_table) (key value : CString) :
    Outcome ht_hash_table :=
  ht_insert_loop key value fuel ht 0

/-- The loop of `ht_search`; `none` is the `NULL` result. -/
def ht_search_loop (key : CString) :
    Nat → ht_hash_table → Nat → Outcome (Option CString)
  | 0, _, _ => Outcome.outOfFuel
  | fuel + 1, ht, attempt =>
    let index := ht_get_hash key ht.size attempt
    match readSlot ht.items index with
    | none => Outcome.outOfBounds
    | some Slot.empty => Outcome.done none
    | some Slot.deleted => ht_search_loop key fuel ht (attempt + 1)
    | some (Slot.item k v) =>
      if k = key then Outcome.done (some v)
      else ht_search_loop key fuel ht (attempt + 1)

/-- The function `ht_search`. -/
def ht_search (fuel : Nat) (ht : ht_hash_table) (key : CString) :
    Outcome (Option CString) :=
  ht_search_loop key fuel ht 0

/-- The loop of `ht_delete`: a matching bucket is overwritten with the
sentinel and the walk goes on; the count is decremented (an `int` decrement)
once the walk meets `NULL`. -/
def ht_delete_loop (key : CString) :
    Nat → ht_hash_table → Nat → Outcome ht_hash_table
  | 0, _, _ => Outcome.outOfFuel
  | fuel + 1, ht, attempt =>
    let index := ht_get_hash key ht.size attempt
    match readSlot ht.items index with
    | none => Outcome.outOfBounds
    | some Slot.empty => Outcome.done { ht with count := wrapInt (ht.count - 1) }
    | some Slot.deleted => ht_delete_loop key fuel ht (attempt + 1)
    | some (Slot.item k _) =>
      if k = key then
        ht_delete_loop key fuel
          { ht with items := writeSlot ht.items index Slot.deleted } (attempt + 1)
      else ht_delete_loop key fuel ht (attempt + 1)

/-- The function `ht_delete`. -/
def ht_delete (fuel : Nat) (ht : ht_hash_table) (key : CString) :
    Outcome ht_hash_table :=
  ht_delete_loop key fuel ht 0

/-! ## Vocabulary of the statements -/

/-- The walk of `key` goes past a bucket holding the sentinel or an item with
another key. -/
def passes (key : CString) : Slot → Prop
  | Slot.empty => False
  | Slot.deleted => True
  | Slot.item k _ => k ≠ key

/-- Probes `a, ..., j-1` of `key` all read a bucket that the walk goes past. -/
def Walk (key : CString) (ht : ht_hash_table) (a j : Nat) : Prop :=
  ∀ i : Nat, a ≤ i → i < j →
    ∃ s, readSlot ht.items (ht_get_hash key ht.size i) = some s ∧ passes key s

/-- Where the loops of `ht_insert` and `ht_search` stop: the index and content
of the first bucket on the walk that is `NULL` or holds `key`. -/
def probeStop (key : CString) : Nat → ht_hash_table → Nat → Outcome (Int × Slot)
  | 0, _, _ => Outcome.outOfFuel
  | fuel + 1, ht, attempt =>
    let index := ht_get_hash key ht.size attempt
    match readSlot ht.items index with
    | none => Outcome.outOfBounds
    | some Slot.empty => Outcome.done (index, Slot.empty)
    | some Slot.deleted => probeStop key fuel ht (attempt + 1)
    | some (Slot.item k v) =>
      if k = key then Outcome.done (index, Slot.item k v)
      else probeStop key fuel ht (attempt + 1)

/-- What `ht_insert` does once its loop has stopped at `stop`. -/
def insertAt (ht : ht_hash_table) (key value : CString) :
    Outcome (Int × Slot) → Outcome ht_hash_table
  | Outcome.done (index, Slot.item _ _) =>
    Outcome.done { ht with items := writeSlot ht.items index (Slot.item key value) }
  | Outcome.done (index, _) =>
    Outcome.done { ht with items := writeSlot ht.items index (Slot.item key value),
                           count := wrapInt (ht.count + 1) }
  | Outcome.outOfBounds => Outcome.outOfBounds
  | Outcome.outOfFuel => Outcome.outOfFuel

/-- What `ht_search` returns once its loop has stopped at `stop`. -/
def searchAt : Outcome (Int × Slot) → Outcome (Option CString)
  | Outcome.done (_, Slot.item _ v) => Outcome.done (some v)
  | Outcome.done (_, _) => Outcome.done none
  | Outcome.outOfBounds => Outcome.outOfBounds
  | Outcome.outOfFuel => Outcome.outOfFuel

/-- How `ht_delete key` may change the buckets: each bucket is either kept or
went from an item holding `key` to the sentinel. -/
def DelRel (key : CString) (items items' : List Slot) : Prop :=
  ∀ index : Int, readSlot items' index = readSlot items index ∨
    ((∃ v, readSlot items index = some (Slot.item key v)) ∧
      readSlot items' index = some Slot.deleted)

/-- The bucket points to an item whose key is `key`. -/
def holdsKey (key : CString) : Slot → Bool
  | Slot.item k _ => decide (k = key)
  | _ => false

/-- Number of `NULL` buckets. -/
def emptyCount (items : List Slot) : Nat := items.count Slot.empty

/-- Tables produced from `ht_new ()` by completed calls of `ht_insert` and
`ht_delete`. -/
inductive Reachable : ht_hash_table → Prop where
  | new : Reachable ht_new
  | insert (t t' : ht_hash_table) (fuel : Nat) (key value : CString) :
      Reachable t → ht_insert fuel t key value = Outcome.done t' → Reachable t'
  | delete (t t' : ht_hash_table) (fuel : Nat) (key : CString) :
      Reachable t → ht_delete fuel t key = Outcome.done t' → Reachable t'

/-- Tables produced from `ht_new ()` by completed calls of `ht_insert` and
`ht_delete`, none of which inserts the key `K`. -/
inductive ReachableWithout (K : CString) : ht_hash_table → Prop where
  | new : ReachableWithout K ht_new
  | insert (t t' : ht_hash_table) (fuel : Nat) (key value : CString) :
      ReachableWithout K t → key ≠ K → ht_insert fuel t key value = Outcome.done t' →
      ReachableWithout K t'
  | delete (t t' : ht_hash_table) (fuel : Nat) (key : CString) :
      ReachableWithout K t → ht_delete fuel t key = Outcome.done t' →
      ReachableWithout K t'

/-- A fresh table in which bucket `index` was overwritten with `s`. -/
def oneSlot (index : Int) (s : Slot) (count : Int) : ht_hash_table :=
  { size := 53, count := count, items := writeSlot ht_new.items index s }

/-- A fresh table in which two buckets were overwritten, `index1` first. -/
def twoSlots (index1 : Int) (s1 : Slot) (index2 : Int) (s2 : Slot) (count : Int) :
    ht_hash_table :=
  { size := 53, count := count,
    items := writeSlot (writeSlot ht_new.items index1 s1) index2 s2 }

/-- Tables produced from a table by completed calls of `ht_insert` on the given
key/value pairs, in order. -/
inductive InsertsAll : ht_hash_table → List (CString × CString) → ht_hash_table → Prop where
  | nil (t : ht_hash_table) : InsertsAll t [] t
  | cons (t t1 t' : ht_hash_table) (fuel : Nat) (key value : CString)
      (rest : List (CString × CString)) :
      ht_insert fuel t key value = Outcome.done t1 → InsertsAll t1 rest t' →
      InsertsAll t ((key, value) :: rest) t'

/-- Tables produced from a table by completed calls of `ht_delete` on the given
keys, in order. -/
inductive DeletesAll : ht_hash_table → List CString → ht_hash_table → Prop where
  | nil (t : ht_hash_table) : DeletesAll t [] t
  | cons (t t1 t' : ht_hash_table) (fuel : Nat) (key : CString) (rest : List CString) :
      ht_delete fuel t key = Outcome.done t1 → DeletesAll t1 rest t' →
      DeletesAll t (key :: rest) t'

/-- The hash as the specification writes it:
`(Σ_{i=0}^{len(s)-1} a^(len(s)-1-i) · code(s[i])) mod m`, with the
mathematical (non-negative) remainder. -/
def hash_spec (s : CString) (a m : Int) : Int :=
  ((List.range s.length).map (fun i => a ^ (s.length - 1 - i) * s.getD i 0)).sum % m

/-- The values of `hash + (long)pow(a, len_s - (i+1)) * s[i]` in the
statement `hash += ...` of `ht_hash`, in order, computed without overflow from
the `long` operands `hash` and `(long)pow(...)`: the statement stores the
value unchanged when it is in the range of `long`, and overflows otherwise. -/
def ht_hash_sums (a m : Int) : CString → Int → List Int
  | [], _ => []
  | c :: rest, hash =>
    (hash + pow_long a rest.length * c) ::
      ht_hash_sums a m rest
        (Int.tmod (wrapLong (hash + wrapLong (pow_long a rest.length * c))) m)

/-- Every stored key is met by its own probe walk after non-`NULL` buckets
only. -/
def WalkInv (t : ht_hash_table) : Prop :=
  ∀ (index : Int) (k v : CString), readSlot t.items index = some (Slot.item k v) →
    ∃ j : Nat, ht_get_hash k t.size j = index ∧
      ∀ i : Nat, i < j →
        ∃ s, readSlot t.items (ht_get_hash k t.size i) = some s ∧ s ≠ Slot.empty

/-! ## Bucket reads and writes -/

theorem readSlot_some_bounds {items : List Slot} {index : Int} {s : Slot}
    (h : readSlot items index = some s) :
    0 ≤ index ∧ index.toNat < items.length := by
  unfold readSlot at h
  split at h
  · rename_i h0
    refine ⟨h0, ?_⟩
    by_contra hc
    rw [List.getElem?_eq_none (by omega)] at h
    cases h
  · cases h

theorem readSlot_writeSlot_same {items : List Slot} {index : Int} {s x : Slot}
    (h : readSlot items index = some s) :
    readSlot (writeSlot items index x) index = some x := by
  obtain ⟨h0, hlt⟩ := readSlot_some_bounds h
  simp [readSlot, writeSlot, h0, List.getElem?_set, hlt]

theorem readSlot_writeSlot_other {items : List Slot} {index j : Int} {s x : Slot}
    (h : readSlot items index = some s) (hj : j ≠ index) :
    readSlot (writeSlot items index x) j = readSlot items j := by
  obtain ⟨h0, _⟩ := readSlot_some_bounds h
  unfold readSlot writeSlot
  by_cases hj0 : 0 ≤ j
  · have hne : index.toNat ≠ j.toNat := by omega
    simp [hj0, List.getElem?_set, hne]
  · simp [hj0]

/-! ## The probe walk shared by `ht_insert` and `ht_search` -/

theorem ht_insert_loop_eq (key value : CString) :
    ∀ (fuel : Nat) (ht : ht_hash_table) (a : Nat),
      ht_insert_loop key value fuel ht a = insertAt ht key value (probeStop key fuel ht a) := by
  intro fuel
  induction fuel with
  | zero => intro ht a; rfl
  | succ n ih =>
    intro ht a
    cases hr : readSlot ht.items (ht_get_hash key ht.size a) with
    | none => simp [ht_insert_loop, probeStop, hr, insertAt]
    | some s =>
      cases s with
      | empty => simp [ht_insert_loop, probeStop, hr, insertAt]
      | deleted => simp [ht_insert_loop, probeStop, hr, ih]
      | item k v =>
        by_cases hk : k = key
        · simp [ht_insert_loop, probeStop, hr, hk, insertAt]
        · simp [ht_insert_loop, probeStop, hr, hk, ih]

theorem ht_search_loop_eq (key : CString) :
    ∀ (fuel : Nat) (ht : ht_hash_table) (a : Nat),
      ht_search_loop key fuel ht a = searchAt (probeStop key fuel ht a) := by
  intro fuel
  induction fuel with
  | zero => intro ht a; rfl
  | succ n ih =>
    intro ht a
    cases hr : readSlot ht.items (ht_get_hash key ht.size a) with
    | none => simp [ht_search_loop, probeStop, hr, searchAt]
    | some s =>
      cases s with
      | empty => simp [ht_search_loop, probeStop, hr, searchAt]
      | deleted => simp [ht_search_loop, probeStop, hr, ih]
      | item k v =>
        by_cases hk : k = key
        · simp [ht_search_loop, probeStop, hr, hk, searchAt]
        · simp [ht_search_loop, probeStop, hr, hk, ih]

/-- The loop stops within `fuel` reads exactly when some probe `j` reads a
bucket that is `NULL` or holds `key`, all earlier probes being passed. -/
theorem probeStop_done_iff (key : CString) :
    ∀ (fuel : Nat) (ht : ht_hash_table) (a : Nat) (index : Int) (s : Slot),
      probeStop key fuel ht a = Outcome.done (index, s) ↔
        ∃ j : Nat, a ≤ j ∧ j < a + fuel ∧ Walk key ht a j ∧
          index = ht_get_hash key ht.size j ∧
          readSlot ht.items index = some s ∧ ¬ passes key s := by
  intro fuel
  induction fuel with
  | zero =>
    intro ht a index s
    constructor
    · intro h; simp [probeStop] at h
    · rintro ⟨j, h1, h2, _⟩; omega
  | succ n ih =>
    intro ht a index s
    have hwalk : ∀ (s0 : Slot) (j : Nat),
        readSlot ht.items (ht_get_hash key ht.size a) = some s0 → passes key s0 →
        Walk key ht (a + 1) j → Walk key ht a j := by
      intro s0 j hs0 hp hw i hi1 hi2
      by_cases hia : i = a
      · subst hia; exact ⟨s0, hs0, hp⟩
      · exact hw i (by omega) hi2
    have hback : ∀ (s0 : Slot),
        readSlot ht.items (ht_get_hash key ht.size a) = some s0 → passes key s0 →
        ((∃ j : Nat, a ≤ j ∧ j < a + (n + 1) ∧ Walk key ht a j ∧
          index = ht_get_hash key ht.size j ∧
          readSlot ht.items index = some s ∧ ¬ passes key s) ↔
          probeStop key n ht (a + 1) = Outcome.done (index, s)) := by
      intro s0 hs0 hp
      rw [ih ht (a + 1) index s]
      constructor
      · rintro ⟨j, h1, h2, hw, hidx, hrd, hnp⟩
        have hja : j ≠ a := by
          rintro rfl
          rw [hidx, hs0] at hrd
          cases hrd
          exact hnp hp
        exact ⟨j, by omega, by omega, fun i hi1 hi2 => hw i (by omega) hi2, hidx, hrd, hnp⟩
      · rintro ⟨j, h1, h2, hw, hidx, hrd, hnp⟩
        exact ⟨j, by omega, by omega, hwalk s0 j hs0 hp hw, hidx, hrd, hnp⟩
    have hstop : ∀ (s0 : Slot),
        readSlot ht.items (ht_get_hash key ht.size a) = some s0 → ¬ passes key s0 →
        ((∃ j : Nat, a ≤ j ∧ j < a + (n + 1) ∧ Walk key ht a j ∧
          index = ht_get_hash key ht.size j ∧
          readSlot ht.items index = some s ∧ ¬ passes key s) ↔
          (ht_get_hash key ht.size a, s0) = (index, s)) := by
      intro s0 hs0 hnp0
      constructor
      · rintro ⟨j, h1, h2, hw, hidx, hrd, hnp⟩
        by_cases hja : j = a
        · subst hja
          rw [hidx, hs0] at hrd
          cases hrd
          rw [hidx]
        · obtain ⟨s1, hs1, hp1⟩ := hw a (le_refl a) (by omega)
          rw [hs0] at hs1
          cases hs1
          exact absurd hp1 hnp0
      · intro h
        cases h
        exact ⟨a, le_refl a, by omega, fun i hi1 hi2 => by omega, rfl, hs0, hnp0⟩
    cases hr : readSlot ht.items (ht_get_hash key ht.size a) with
    | none =>
      constructor
      · intro h; simp [probeStop, hr] at h
      · rintro ⟨j, h1, h2, hw, hidx, hrd, hnp⟩
        by_cases hja : j = a
        · subst hja
          rw [hidx, hr] at hrd
          cases hrd
        · obtain ⟨s1, hs1, _⟩ := hw a (le_refl a) (by omega)
          rw [hr] at hs1
          cases hs1
    | some s0 =>
      cases s0 with
      | empty =>
        rw [hstop Slot.empty hr (by simp [passes])]
        simp [probeStop, hr]
      | deleted =>
        rw [hback Slot.deleted hr (by simp [passes])]
        simp [probeStop, hr]
      | item k v =>
        by_cases hk : k = key
        · rw [hstop (Slot.item k v) hr (by simp [passes, hk])]
          simp [probeStop, hr, hk]
        · rw [hback (Slot.item k v) hr (by simp [passes, hk])]
          simp [probeStop, hr, hk]

theorem not_passes_iff (key : CString) (s : Slot) :
    ¬ passes key s ↔ s = Slot.empty ∨ ∃ v, s = Slot.item key v := by
  cases s with
  | empty => simp [passes]
  | deleted => simp [passes]
  | item k v =>
    simp only [passes, ne_eq, not_not, Slot.item.injEq, false_or, reduceCtorEq]
    constructor
    · intro h; exact ⟨v, h, rfl⟩
    · rintro ⟨_, h, _⟩; exact h

/-- A completed `ht_insert` loop: some probe `j`, reached past buckets that
are all passed, read `NULL` (new entry, count incremented) or an item with the
same key (entry replaced, count kept). -/
theorem ht_insert_loop_done_iff (key value : CString) (fuel : Nat)
    (ht : ht_hash_table) (a : Nat) (ht' : ht_hash_table) :
    ht_insert_loop key value fuel ht a = Outcome.done ht' ↔
      ∃ j : Nat, a ≤ j ∧ j < a + fuel ∧ Walk key ht a j ∧
        ((readSlot ht.items (ht_get_hash key ht.size j) = some Slot.empty ∧
            ht' = { ht with
              items := writeSlot ht.items (ht_get_hash key ht.size j) (Slot.item key value),
              count := wrapInt (ht.count + 1) }) ∨
          ((∃ v, readSlot ht.items (ht_get_hash key ht.size j) = some (Slot.item key v)) ∧
            ht' = { ht with
              items :=
                writeSlot ht.items (ht_get_hash key ht.size j) (Slot.item key value) })) := by
  rw [ht_insert_loop_eq]
  constructor
  · intro h
    cases hp : probeStop key fuel ht a with
    | outOfBounds => rw [hp] at h; simp [insertAt] at h
    | outOfFuel => rw [hp] at h; simp [insertAt] at h
    | done p =>
      obtain ⟨index, s⟩ := p
      rw [hp] at h
      obtain ⟨j, h1, h2, hw, hidx, hrd, hnp⟩ := (probeStop_done_iff key fuel ht a index s).mp hp
      refine ⟨j, h1, h2, hw, ?_⟩
      subst hidx
      rcases (not_passes_iff key s).mp hnp with rfl | ⟨v, rfl⟩
      · left
        simp only [insertAt, Outcome.done.injEq] at h
        exact ⟨hrd, h.symm⟩
      · right
        simp only [insertAt, Outcome.done.injEq] at h
        exact ⟨⟨v, hrd⟩, h.symm⟩
  · rintro ⟨j, h1, h2, hw, hcase⟩
    rcases hcase with ⟨hrd, rfl⟩ | ⟨⟨v, hrd⟩, rfl⟩
    · have hp := (probeStop_done_iff key fuel ht a _ Slot.empty).mpr
        ⟨j, h1, h2, hw, rfl, hrd, by simp [passes]⟩
      rw [hp]; rfl
    · have hp := (probeStop_done_iff key fuel ht a _ (Slot.item key v)).mpr
        ⟨j, h1, h2, hw, rfl, hrd, by simp [passes]⟩
      rw [hp]; rfl

/-- A completed `ht_search` loop: some probe `j`, reached past buckets that
are all passed, read `NULL` (result `NULL`) or an item with the same key
(result its value). -/
theorem ht_search_loop_done_iff (key : CString) (fuel : Nat)
    (ht : ht_hash_table) (a : Nat) (r : Option CString) :
    ht_search_loop key fuel ht a = Outcome.done r ↔
      ∃ j : Nat, a ≤ j ∧ j < a + fuel ∧ Walk key ht a j ∧
        ((readSlot ht.items (ht_get_hash key ht.size j) = some Slot.empty ∧ r = none) ∨
          (∃ v, readSlot ht.items (ht_get_hash key ht.size j) = some (Slot.item key v) ∧
            r = some v)) := by
  rw [ht_search_loop_eq]
  constructor
  · intro h
    cases hp : probeStop key fuel ht a with
    | outOfBounds => rw [hp] at h; simp [searchAt] at h
    | outOfFuel => rw [hp] at h; simp [searchAt] at h
    | done p =>
      obtain ⟨index, s⟩ := p
      rw [hp] at h
      obtain ⟨j, h1, h2, hw, hidx, hrd, hnp⟩ := (probeStop_done_iff key fuel ht a index s).mp hp
      refine ⟨j, h1, h2, hw, ?_⟩
      subst hidx
      rcases (not_passes_iff key s).mp hnp with rfl | ⟨v, rfl⟩
      · left
        simp only [searchAt, Outcome.done.injEq] at h
        exact ⟨hrd, h.symm⟩
      · right
        simp only [searchAt, Outcome.done.injEq] at h
        exact ⟨v, hrd, h.symm⟩
  · rintro ⟨j, h1, h2, hw, hcase⟩
    rcases hcase with ⟨hrd, rfl⟩ | ⟨v, hrd, rfl⟩
    · have hp := (probeStop_done_iff key fuel ht a _ Slot.empty).mpr
        ⟨j, h1, h2, hw, rfl, hrd, by simp [passes]⟩
      rw [hp]; rfl
    · have hp := (probeStop_done_iff key fuel ht a _ (Slot.item key v)).mpr
        ⟨j, h1, h2, hw, rfl, hrd, by simp [passes]⟩
      rw [hp]; rfl

/-- A write to a bucket at which the walk stops leaves the walked-past buckets
as they were. -/
theorem Walk_write {key : CString} {ht : ht_hash_table} {a j : Nat} {index : Int}
    {s x : Slot} {c : Int} (hw : Walk key ht a j)
    (hrd : readSlot ht.items index = some s) (hnp : ¬ passes key s) :
    Walk key { ht with items := writeSlot ht.items index x, count := c } a j := by
  intro i hi1 hi2
  obtain ⟨s1, hs1, hp1⟩ := hw i hi1 hi2
  refine ⟨s1, ?_, hp1⟩
  have hne : ht_get_hash key ht.size i ≠ index := by
    intro he
    rw [he, hrd] at hs1
    cases hs1
    exact hnp hp1
  show readSlot (writeSlot ht.items index x) (ht_get_hash key ht.size i) = some s1
  rw [readSlot_writeSlot_other hrd hne]
  exact hs1

/-- After a completed insert loop, the search loop started at the same probe
finds the inserted value. -/
theorem ht_search_loop_after_insert {key value : CString} {fuel : Nat}
    {ht ht' : ht_hash_table} {a : Nat}
    (h : ht_insert_loop key value fuel ht a = Outcome.done ht') :
    ht_search_loop key fuel ht' a = Outcome.done (some value) := by
  obtain ⟨j, h1, h2, hw, hcase⟩ := (ht_insert_loop_done_iff key value fuel ht a ht').mp h
  rw [ht_search_loop_done_iff]
  rcases hcase with ⟨hrd, rfl⟩ | ⟨⟨v, hrd⟩, rfl⟩
  · exact ⟨j, h1, h2, Walk_write hw hrd (by simp [passes]),
      Or.inr ⟨value, readSlot_writeSlot_same hrd, rfl⟩⟩
  · exact ⟨j, h1, h2, Walk_write hw hrd (by simp [passes]),
      Or.inr ⟨value, readSlot_writeSlot_same hrd, rfl⟩⟩

/-! ## The loop of `ht_delete` -/

theorem DelRel_refl (key : CString) (items : List Slot) : DelRel key items items :=
  fun _ => Or.inl rfl

theorem DelRel_write {key : CString} {items : List Slot} {index : Int} {v : CString}
    (hrd : readSlot items index = some (Slot.item key v)) :
    DelRel key items (writeSlot items index Slot.deleted) := by
  intro i
  by_cases hi : i = index
  · subst hi
    exact Or.inr ⟨⟨v, hrd⟩, readSlot_writeSlot_same hrd⟩
  · exact Or.inl (readSlot_writeSlot_other hrd hi)

theorem DelRel_trans {key : CString} {l1 l2 l3 : List Slot}
    (h12 : DelRel key l1 l2) (h23 : DelRel key l2 l3) : DelRel key l1 l3 := by
  intro i
  rcases h23 i with h | ⟨⟨v, hv⟩, hd⟩
  · rcases h12 i with h' | ⟨hv', hd'⟩
    · exact Or.inl (h.trans h')
    · exact Or.inr ⟨hv', h.trans hd'⟩
  · rcases h12 i with h' | ⟨_, hd'⟩
    · exact Or.inr ⟨⟨v, h'.symm.trans hv⟩, hd⟩
    · rw [hd'] at hv; cases hv

/-- A bucket that the walk of `key` goes past is passed after the deletion
too: it is unchanged, or it held another key `key'` and holds the sentinel. -/
theorem DelRel_passes {key key' : CString} {items items' : List Slot} {index : Int}
    {s : Slot} (h : DelRel key' items items')
    (hrd : readSlot items index = some s) (hp : passes key s) :
    ∃ s', readSlot items' index = some s' ∧ passes key s' := by
  rcases h index with h' | ⟨_, hd⟩
  · exact ⟨s, h'.trans hrd, hp⟩
  · exact ⟨Slot.deleted, hd, trivial⟩

/-- A completed `ht_delete` loop keeps `size`, decrements `count`, changes
buckets only from an item holding `key` to the sentinel, and leaves a walk for
`key` that goes past every bucket up to a `NULL` one. -/
theorem ht_delete_loop_done (key : CString) :
    ∀ (fuel : Nat) (ht : ht_hash_table) (a : Nat) (ht' : ht_hash_table),
      ht_delete_loop key fuel ht a = Outcome.done ht' →
        ht'.size = ht.size ∧ ht'.count = wrapInt (ht.count - 1) ∧
        DelRel key ht.items ht'.items ∧
        ∃ j : Nat, a ≤ j ∧ j < a + fuel ∧ Walk key ht' a j ∧
          readSlot ht'.items (ht_get_hash key ht'.size j) = some Slot.empty := by
  intro fuel
  induction fuel with
  | zero => intro ht a ht' h; simp [ht_delete_loop] at h
  | succ n ih =>
    intro ht a ht' h
    have hnext : ∀ (ht1 : ht_hash_table), ht1.size = ht.size → ht1.count = ht.count →
        DelRel key ht.items ht1.items →
        (∃ s, readSlot ht1.items (ht_get_hash key ht.size a) = some s ∧ passes key s) →
        ht_delete_loop key n ht1 (a + 1) = Outcome.done ht' →
        ht'.size = ht.size ∧ ht'.count = wrapInt (ht.count - 1) ∧
        DelRel key ht.items ht'.items ∧
        ∃ j : Nat, a ≤ j ∧ j < a + (n + 1) ∧ Walk key ht' a j ∧
          readSlot ht'.items (ht_get_hash key ht'.size j) = some Slot.empty := by
      intro ht1 hsz hct hrel ⟨s, hs, hp⟩ h1
      obtain ⟨e1, e2, e3, j, h1j, h2j, hw, hrd⟩ := ih ht1 (a + 1) ht' h1
      refine ⟨e1.trans hsz, by rw [e2, hct], DelRel_trans hrel e3,
        j, by omega, by omega, ?_, hrd⟩
      intro i hi1 hi2
      by_cases hia : i = a
      · subst hia
        rw [e1, hsz]
        exact DelRel_passes e3 hs hp
      · exact hw i (by omega) hi2
    cases hr : readSlot ht.items (ht_get_hash key ht.size a) with
    | none => simp [ht_delete_loop, hr] at h
    | some s =>
      cases s with
      | empty =>
        simp only [ht_delete_loop, hr, Outcome.done.injEq] at h
        subst h
        exact ⟨rfl, rfl, DelRel_refl key ht.items, a, le_refl a, by omega,
          fun i hi1 hi2 => by omega, hr⟩
      | deleted =>
        simp only [ht_delete_loop, hr] at h
        exact hnext ht rfl rfl (DelRel_refl key ht.items) ⟨Slot.deleted, hr, trivial⟩ h
      | item k v =>
        by_cases hk : k = key
        · subst hk
          simp only [ht_delete_loop, hr, if_true] at h
          exact hnext
            { ht with items := writeSlot ht.items (ht_get_hash k ht.size a) Slot.deleted }
            rfl rfl (DelRel_write hr) ⟨Slot.deleted, readSlot_writeSlot_same hr, trivial⟩ h
        · simp only [ht_delete_loop, hr, hk, if_false] at h
          exact hnext ht rfl rfl (DelRel_refl key ht.items) ⟨Slot.item k v, hr, hk⟩ h

/-- The search loop for another key reads the same thing before and after a
deletion. -/
theorem ht_search_loop_DelRel {key key' : CString} (hne : key' ≠ key) :
    ∀ (fuel : Nat) (ht ht' : ht_hash_table) (a : Nat),
      ht'.size = ht.size → DelRel key' ht.items ht'.items →
      ht_search_loop key fuel ht' a = ht_search_loop key fuel ht a := by
  intro fuel
  induction fuel with
  | zero => intro ht ht' a _ _; rfl
  | succ n ih =>
    intro ht ht' a hsz hrel
    have hih := ih ht ht' (a + 1) hsz hrel
    rcases hrel (ht_get_hash key ht.size a) with h | ⟨⟨v, hv⟩, hd⟩
    · cases hr : readSlot ht.items (ht_get_hash key ht.size a) with
      | none =>
        rw [hr] at h
        simp [ht_search_loop, hsz, hr, h]
      | some s =>
        rw [hr] at h
        cases s with
        | empty => simp [ht_search_loop, hsz, hr, h]
        | deleted => simp [ht_search_loop, hsz, hr, h, hih]
        | item k v => simp [ht_search_loop, hsz, hr, h, hih]
    · simp [ht_search_loop, hsz, hv, hd, hne, hih]

/-! ## Machine integers -/

/-- An integer in the range of `int` is its own `int` value. -/
theorem wrapInt_of_range {x : Int} (h0 : -2 ^ 31 ≤ x) (h1 : x < 2 ^ 31) : wrapInt x = x := by
  unfold wrapInt
  norm_num at h0 h1 ⊢
  omega

/-- The value of an `int` is in the range of `int`. -/
theorem wrapInt_range (x : Int) : -2 ^ 31 ≤ wrapInt x ∧ wrapInt x < 2 ^ 31 := by
  unfold wrapInt
  norm_num
  omega

/-- Two integers that differ by a multiple of `2^32` have the same `int`
value. -/
theorem wrapInt_congr {x y : Int} (h : (2 : Int) ^ 32 ∣ x - y) : wrapInt x = wrapInt y := by
  unfold wrapInt
  norm_num at h ⊢
  omega

/-- An `int` step added to an `int` value: the sum depends on the first
operand modulo `2^32` only. -/
theorem wrapInt_add_wrapInt (x y : Int) : wrapInt (wrapInt x + y) = wrapInt (x + y) := by
  unfold wrapInt
  norm_num
  omega

/-- The counter of the loops after `n` increments gives the same probe index
as the number `n` itself. -/
theorem ht_get_hash_wrapInt (s : CString) (num_buckets attempt : Int) :
    ht_get_hash s num_buckets (wrapInt attempt) = ht_get_hash s num_buckets attempt := by
  unfold ht_get_hash
  have h : wrapInt (wrapInt attempt) = wrapInt attempt := by
    obtain ⟨h0, h1⟩ := wrapInt_range attempt
    exact wrapInt_of_range h0 h1
  simp only [h]

/-! ## Properties of the operations -/

/-- C1 (read-your-write): for every table, key `K` and value `V`, if
`ht_insert (t, K, V)` completes then `ht_search` on the resulting table with
key `K` returns `V`, within the same number of bucket reads. -/
theorem insert_then_search (t t' : ht_hash_table) (K V : CString) (fuel : Nat)
    (h : ht_insert fuel t K V = Outcome.done t') :
    ht_search fuel t' K = Outcome.done (some V) :=
  ht_search_loop_after_insert h

/-- The calls of `main` up to `ht_delete`: three inserts of `"first_name"`
(the last two are updates) and the deletion, which leaves the sentinel in
bucket 4. -/
theorem main_prefix :
    ht_insert 1 ht_new (cstr "first_name") (cstr "Bryan") =
        Outcome.done (oneSlot 4 (Slot.item (cstr "first_name") (cstr "Bryan")) 1) ∧
      ht_insert 1 (oneSlot 4 (Slot.item (cstr "first_name") (cstr "Bryan")) 1)
          (cstr "first_name") (cstr "Gearnode") =
        Outcome.done (oneSlot 4 (Slot.item (cstr "first_name") (cstr "Gearnode")) 1) ∧
      ht_insert 1 (oneSlot 4 (Slot.item (cstr "first_name") (cstr "Gearnode")) 1)
          (cstr "first_name") (cstr "foobar") =
        Outcome.done (oneSlot 4 (Slot.item (cstr "first_name") (cstr "foobar")) 1) ∧
      ht_delete 2 (oneSlot 4 (Slot.item (cstr "first_name") (cstr "foobar")) 1)
          (cstr "first_name") =
        Outcome.done (oneSlot 4 Slot.deleted 0) := by
  refine ⟨?_, ?_, ?_, ?_⟩ <;> rfl

/-- Witness of C1 on the last two calls of `main`: after the deletion, which
left the sentinel in bucket 4, inserting `"first_name"` with `"yo"` puts the
entry in bucket 16 and the search returns `"yo"`. -/
theorem insert_then_search_witness :
    ht_insert 2 (oneSlot 4 Slot.deleted 0) (cstr "first_name") (cstr "yo") =
        Outcome.done
          (twoSlots 4 Slot.deleted 16 (Slot.item (cstr "first_name") (cstr "yo")) 1) ∧
      ht_search 2
          (twoSlots 4 Slot.deleted 16 (Slot.item (cstr "first_name") (cstr "yo")) 1)
          (cstr "first_name") = Outcome.done (some (cstr "yo")) :=
  ⟨by rfl,
    insert_then_search (oneSlot 4 Slot.deleted 0)
      (twoSlots 4 Slot.deleted 16 (Slot.item (cstr "first_name") (cstr "yo")) 1)
      (cstr "first_name") (cstr "yo") 2 (by rfl)⟩

/-- On a table whose 53 buckets are all `NULL`, `ht_delete ("a")` finds
nothing to remove and returns the table with `count` decremented. -/
theorem delete_on_empty_table (c : Int) :
    ht_delete 1 { size := 53, count := c, items := ht_new.items } (cstr "a") =
      Outcome.done { size := 53, count := wrapInt (c - 1), items := ht_new.items } := by
  rfl

/-- The table reached from the fresh table by `n` calls of
`ht_delete ("a")`: the buckets are all `NULL` and `count` is the `int` value of
`-n`. -/
theorem reachable_after_deletes (n : Nat) :
    Reachable { size := 53, count := wrapInt (-(n : Int)), items := ht_new.items } := by
  induction n with
  | zero => exact Reachable.new
  | succ k ih =>
    have h := Reachable.delete _ _ 1 (cstr "a") ih (delete_on_empty_table _)
    have e : wrapInt (wrapInt (-(k : Int)) - 1) = wrapInt (-((k + 1 : Nat) : Int)) := by
      rw [sub_eq_add_neg, wrapInt_add_wrapInt]
      congr 1
      push_cast
      ring
    rw [e] at h
    exact h

/-- The table with 53 `NULL` buckets and `count = INT_MAX` is reached from the
fresh table by 2147483649 calls of `ht_delete ("a")`: the unconditional
decrement takes `count` down to `INT_MIN`, and the next one overflows. -/
theorem reachable_count_int_max :
    Reachable { size := 53, count := 2147483647, items := ht_new.items } := by
  have e : wrapInt (-((2147483649 : Nat) : Int)) = 2147483647 := by rfl
  have h := reachable_after_deletes 2147483649
  rw [e] at h
  exact h

/-- C2, as the code has it (overwrite): in every table where `ht_search (K)`
returns `NULL` and whose `count` is an `int` below `INT_MAX`,
`ht_insert (K, V1)` and then `ht_insert (K, V2)` both complete, after which
`ht_search (K)` returns `V2` and `count` is one more than at the start. -/
theorem insert_twice (t : ht_hash_table) (K V1 V2 : CString) (fuel : Nat)
    (h : ht_search fuel t K = Outcome.done none)
    (hlo : -2 ^ 31 ≤ t.count) (hhi : t.count < 2 ^ 31 - 1) :
    ∃ t1 t2 : ht_hash_table,
      ht_insert fuel t K V1 = Outcome.done t1 ∧
      ht_insert fuel t1 K V2 = Outcome.done t2 ∧
      ht_search fuel t2 K = Outcome.done (some V2) ∧
      t2.count = t.count + 1 := by
  obtain ⟨j, h1, h2, hw, hcase⟩ := (ht_search_loop_done_iff K fuel t 0 none).mp h
  rcases hcase with ⟨hrd, _⟩ | ⟨v, _, hv⟩
  · have hi1 : ht_insert fuel t K V1 = Outcome.done
        { t with items := writeSlot t.items (ht_get_hash K t.size j) (Slot.item K V1),
                 count := wrapInt (t.count + 1) } :=
      (ht_insert_loop_done_iff K V1 fuel t 0 _).mpr ⟨j, h1, h2, hw, Or.inl ⟨hrd, rfl⟩⟩
    have hi2 : ht_insert fuel
        { t with items := writeSlot t.items (ht_get_hash K t.size j) (Slot.item K V1),
                 count := wrapInt (t.count + 1) } K V2 = Outcome.done
        { t with items := writeSlot
                   (writeSlot t.items (ht_get_hash K t.size j) (Slot.item K V1))
                   (ht_get_hash K t.size j) (Slot.item K V2),
                 count := wrapInt (t.count + 1) } :=
      (ht_insert_loop_done_iff K V2 fuel _ 0 _).mpr
        ⟨j, h1, h2, Walk_write hw hrd (by simp [passes]),
          Or.inr ⟨⟨V1, readSlot_writeSlot_same hrd⟩, rfl⟩⟩
    exact ⟨_, _, hi1, hi2, ht_search_loop_after_insert hi2,
      wrapInt_of_range (by omega) (by omega)⟩
  · cases hv

/-- Witness of C2 on the first two calls of `main`: `"first_name"` is absent
from the fresh table, whose count is 0, and the two inserts leave `"Gearnode"`
with count 1. -/
theorem insert_twice_witness :
    ht_search 1 ht_new (cstr "first_name") = Outcome.done none ∧
      ∃ t1 t2 : ht_hash_table,
        ht_insert 1 ht_new (cstr "first_name") (cstr "Bryan") = Outcome.done t1 ∧
        ht_insert 1 t1 (cstr "first_name") (cstr "Gearnode") = Outcome.done t2 ∧
        ht_search 1 t2 (cstr "first_name") = Outcome.done (some (cstr "Gearnode")) ∧
        t2.count = ht_new.count + 1 :=
  ⟨by rfl,
    insert_twice ht_new (cstr "first_name") (cstr "Bryan") (cstr "Gearnode") 1 (by rfl)
      (by decide) (by decide)⟩

/-- C2 fails as stated when `count` is `INT_MAX`: the table with 53 `NULL`
buckets and count 2147483647 is reached from `ht_new ()` by completed calls of
`ht_delete`, and the key `"a"` is absent from it; after the two inserts the
search returns `"y"`, but the `int` increment has overflowed and `count` is
-2147483648, not one more than before. -/
theorem insert_twice_count_overflow :
    Reachable { size := 53, count := 2147483647, items := ht_new.items } ∧
      ht_search 1 { size := 53, count := 2147483647, items := ht_new.items } (cstr "a") =
        Outcome.done none ∧
      ht_insert 1 { size := 53, count := 2147483647, items := ht_new.items }
          (cstr "a") (cstr "x") =
        Outcome.done (oneSlot 44 (Slot.item (cstr "a") (cstr "x")) (-2147483648)) ∧
      ht_insert 1 (oneSlot 44 (Slot.item (cstr "a") (cstr "x")) (-2147483648))
          (cstr "a") (cstr "y") =
        Outcome.done (oneSlot 44 (Slot.item (cstr "a") (cstr "y")) (-2147483648)) ∧
      ht_search 1 (oneSlot 44 (Slot.item (cstr "a") (cstr "y")) (-2147483648)) (cstr "a") =
        Outcome.done (some (cstr "y")) ∧
      (oneSlot 44 (Slot.item (cstr "a") (cstr "y")) (-2147483648)).count ≠
        ({ size := 53, count := 2147483647, items := ht_new.items } :
          ht_hash_table).count + 1 := by
  refine ⟨reachable_count_int_max, by rfl, by rfl, by rfl, by rfl, by decide⟩

/-- C3 (delete removes the key): for every table and key `K`, if
`ht_delete (t, K)` completes then `ht_search` on the resulting table with key
`K` returns `NULL`, within the same number of bucket reads. -/
theorem delete_then_search (t t' : ht_hash_table) (K : CString) (fuel : Nat)
    (h : ht_delete fuel t K = Outcome.done t') :
    ht_search fuel t' K = Outcome.done none := by
  obtain ⟨_, _, _, j, h1, h2, hw, hrd⟩ := ht_delete_loop_done K fuel t 0 t' h
  exact (ht_search_loop_done_iff K fuel t' 0 none).mpr ⟨j, h1, h2, hw, Or.inl ⟨hrd, rfl⟩⟩

/-- Witness of C3: with `"a"` in bucket 44, deleting `"a"` completes, leaves
the sentinel there, and the search then returns `NULL`. -/
theorem delete_then_search_witness :
    ht_insert 1 ht_new (cstr "a") (cstr "x") =
        Outcome.done (oneSlot 44 (Slot.item (cstr "a") (cstr "x")) 1) ∧
      ht_delete 2 (oneSlot 44 (Slot.item (cstr "a") (cstr "x")) 1) (cstr "a") =
        Outcome.done (oneSlot 44 Slot.deleted 0) ∧
      ht_search 2 (oneSlot 44 Slot.deleted 0) (cstr "a") = Outcome.done none :=
  ⟨by rfl, by rfl,
    delete_then_search (oneSlot 44 (Slot.item (cstr "a") (cstr "x")) 1)
      (oneSlot 44 Slot.deleted 0) (cstr "a") 2 (by rfl)⟩

/-- C8 (deletion does not hide other keys): for every table and distinct keys
`K1`, `K2`, if `ht_delete (t, K1)` completes then `ht_search (K2)` behaves on
the resulting table exactly as on `t`, for every bound on the bucket reads. -/
theorem delete_keeps_other_search (t t' : ht_hash_table) (K1 K2 : CString) (fuel : Nat)
    (hne : K1 ≠ K2) (h : ht_delete fuel t K1 = Outcome.done t') :
    ∀ fuel' : Nat, ht_search fuel' t' K2 = ht_search fuel' t K2 := by
  obtain ⟨hsz, _, hrel, _⟩ := ht_delete_loop_done K1 fuel t 0 t' h
  intro fuel'
  exact ht_search_loop_DelRel hne fuel' t t' 0 hsz hrel

/-- Witness of C8: `"a"` and `","` both start probing at bucket 44; with `"a"`
in bucket 44 and `","` in bucket 36, deleting `"a"` leaves the sentinel in
bucket 44 and `","` is still found behind it. -/
theorem delete_keeps_other_search_witness :
    cstr "a" ≠ cstr "," ∧
      ht_delete 3
          (twoSlots 44 (Slot.item (cstr "a") (cstr "x")) 36
            (Slot.item (cstr ",") (cstr "y")) 2) (cstr "a") =
        Outcome.done (twoSlots 44 Slot.deleted 36 (Slot.item (cstr ",") (cstr "y")) 1) ∧
      ht_search 2 (twoSlots 44 Slot.deleted 36 (Slot.item (cstr ",") (cstr "y")) 1)
          (cstr ",") = Outcome.done (some (cstr "y")) ∧
      ∀ fuel' : Nat,
        ht_search fuel' (twoSlots 44 Slot.deleted 36 (Slot.item (cstr ",") (cstr "y")) 1)
            (cstr ",") =
          ht_search fuel'
            (twoSlots 44 (Slot.item (cstr "a") (cstr "x")) 36
              (Slot.item (cstr ",") (cstr "y")) 2) (cstr ",") :=
  ⟨by decide, by rfl, by rfl,
    delete_keeps_other_search
      (twoSlots 44 (Slot.item (cstr "a") (cstr "x")) 36 (Slot.item (cstr ",") (cstr "y")) 2)
      (twoSlots 44 Slot.deleted 36 (Slot.item (cstr ",") (cstr "y")) 1)
      (cstr "a") (cstr ",") 3 (by decide) (by rfl)⟩

theorem readSlot_mem {items : List Slot} {index : Int} {s : Slot}
    (h : readSlot items index = some s) : s ∈ items := by
  unfold readSlot at h
  split at h
  · exact List.getElem?_mem h
  · cases h

theorem readSlot_natCast (items : List Slot) (n : Nat) :
    readSlot items (n : Int) = items[n]? := by
  simp [readSlot]

/-- In a table where no bucket holds `key`, the walk of `key` goes past
exactly the buckets that are not `NULL`. -/
theorem passes_iff_of_absent {key : CString} {items : List Slot} {s : Slot}
    (hK : ∀ s ∈ items, holdsKey key s = false) (hs : s ∈ items) :
    passes key s ↔ s ≠ Slot.empty := by
  have h := hK s hs
  cases s with
  | empty => simp [passes]
  | deleted => simp [passes]
  | item k v => simpa [passes, holdsKey] using h

/-- C4, as the code has it: in a table where no bucket holds `K`,
`ht_insert (K, V)` completes exactly when `K`'s probe sequence meets a `NULL`
bucket, at some probe `j`, after non-`NULL` buckets only (occupied ones and
sentinels alike, all left as they are); the new entry is then stored in that
`NULL` bucket and `count` is incremented (an `int` increment). -/
theorem insert_absent_first_empty (t t' : ht_hash_table) (K V : CString) (fuel : Nat)
    (hK : ∀ s ∈ t.items, holdsKey K s = false) :
    ht_insert fuel t K V = Outcome.done t' ↔
      ∃ j : Nat, j < fuel ∧
        (∀ i : Nat, i < j →
          ∃ s, readSlot t.items (ht_get_hash K t.size i) = some s ∧ s ≠ Slot.empty) ∧
        readSlot t.items (ht_get_hash K t.size j) = some Slot.empty ∧
        t' = { t with
          items := writeSlot t.items (ht_get_hash K t.size j) (Slot.item K V),
          count := wrapInt (t.count + 1) } := by
  unfold ht_insert
  rw [ht_insert_loop_done_iff]
  constructor
  · rintro ⟨j, _, h2, hw, hcase⟩
    refine ⟨j, by omega, ?_, ?_⟩
    · intro i hi
      obtain ⟨s, hs, hp⟩ := hw i (Nat.zero_le i) hi
      exact ⟨s, hs, (passes_iff_of_absent hK (readSlot_mem hs)).mp hp⟩
    · rcases hcase with ⟨hrd, rfl⟩ | ⟨⟨v, hrd⟩, _⟩
      · exact ⟨hrd, rfl⟩
      · have := hK _ (readSlot_mem hrd)
        simp [holdsKey] at this
  · rintro ⟨j, h2, hw, hrd, rfl⟩
    refine ⟨j, Nat.zero_le j, by omega, ?_, Or.inl ⟨hrd, rfl⟩⟩
    intro i _ hi
    obtain ⟨s, hs, hne⟩ := hw i hi
    exact ⟨s, hs, (passes_iff_of_absent hK (readSlot_mem hs)).mpr hne⟩

/-- The calls `ht_insert ("a", "x")` and `ht_delete ("a")` on a fresh table:
the entry goes to bucket 44, the first probe of `"a"`, and the deletion leaves
the sentinel there; the second probe of `"a"` is bucket 36. -/
theorem insert_delete_a :
    ht_get_hash (cstr "a") 53 0 = 44 ∧ ht_get_hash (cstr "a") 53 1 = 36 ∧
      ht_insert 1 ht_new (cstr "a") (cstr "x") =
        Outcome.done (oneSlot 44 (Slot.item (cstr "a") (cstr "x")) 1) ∧
      ht_delete 2 (oneSlot 44 (Slot.item (cstr "a") (cstr "x")) 1) (cstr "a") =
        Outcome.done (oneSlot 44 Slot.deleted 0) := by
  refine ⟨by rfl, by rfl, by rfl, by rfl⟩

/-- Witness of C4: after insert and delete of `"a"` on a fresh table, bucket
44 (probe 0 of `"a"`) holds the sentinel and bucket 36 (probe 1) is `NULL`; a
new insert of `"a"` stores the entry in bucket 36. -/
theorem insert_absent_first_empty_witness :
    (∀ s ∈ (oneSlot 44 Slot.deleted 0).items, holdsKey (cstr "a") s = false) ∧
      (ht_insert 2 (oneSlot 44 Slot.deleted 0) (cstr "a") (cstr "y") =
          Outcome.done (twoSlots 44 Slot.deleted 36 (Slot.item (cstr "a") (cstr "y")) 1) ↔
        ∃ j : Nat, j < 2 ∧
          (∀ i : Nat, i < j →
            ∃ s, readSlot (oneSlot 44 Slot.deleted 0).items
                (ht_get_hash (cstr "a") (oneSlot 44 Slot.deleted 0).size i) = some s ∧
              s ≠ Slot.empty) ∧
          readSlot (oneSlot 44 Slot.deleted 0).items
              (ht_get_hash (cstr "a") (oneSlot 44 Slot.deleted 0).size j) =
            some Slot.empty ∧
          twoSlots 44 Slot.deleted 36 (Slot.item (cstr "a") (cstr "y")) 1 =
            { oneSlot 44 Slot.deleted 0 with
              items := writeSlot (oneSlot 44 Slot.deleted 0).items
                (ht_get_hash (cstr "a") (oneSlot 44 Slot.deleted 0).size j)
                (Slot.item (cstr "a") (cstr "y")),
              count := wrapInt ((oneSlot 44 Slot.deleted 0).count + 1) }) ∧
      ht_insert 2 (oneSlot 44 Slot.deleted 0) (cstr "a") (cstr "y") =
        Outcome.done (twoSlots 44 Slot.deleted 36 (Slot.item (cstr "a") (cstr "y")) 1) :=
  ⟨by decide,
    insert_absent_first_empty (oneSlot 44 Slot.deleted 0)
      (twoSlots 44 Slot.deleted 36 (Slot.item (cstr "a") (cstr "y")) 1)
      (cstr "a") (cstr "y") 2 (by decide),
    by rfl⟩

/-- C4 fails as stated: after insert and delete of `"a"` on a fresh table, the
first bucket of the probe sequence of `"a"` that is not occupied is bucket 44,
which holds the sentinel, but a new insert of `"a"` does not store the entry
there: bucket 44 keeps the sentinel and the entry is in bucket 36. -/
theorem insert_skips_sentinel :
    ¬ ∀ (t t' : ht_hash_table) (K V : CString) (fuel j : Nat),
        (∀ s ∈ t.items, holdsKey K s = false) →
        ht_insert fuel t K V = Outcome.done t' →
        (∀ i : Nat, i < j →
          ∃ k v, readSlot t.items (ht_get_hash K t.size i) = some (Slot.item k v)) →
        (readSlot t.items (ht_get_hash K t.size j) = some Slot.empty ∨
          readSlot t.items (ht_get_hash K t.size j) = some Slot.deleted) →
        readSlot t'.items (ht_get_hash K t.size j) = some (Slot.item K V) := by
  intro h
  have h3 := h (oneSlot 44 Slot.deleted 0)
    (twoSlots 44 Slot.deleted 36 (Slot.item (cstr "a") (cstr "y")) 1)
    (cstr "a") (cstr "y") 2 0 (by decide) (by rfl)
    (fun i hi => absurd hi (Nat.not_lt_zero i)) (Or.inr (by rfl))
  exact absurd h3 (by decide)

/-- In a table where no bucket holds `K`, a completed `ht_delete (K)` leaves
every bucket as it was and decrements `count` (an `int` decrement). -/
theorem delete_absent (t t' : ht_hash_table) (K : CString) (fuel : Nat)
    (hK : ∀ s ∈ t.items, holdsKey K s = false)
    (h : ht_delete fuel t K = Outcome.done t') :
    t' = { t with count := wrapInt (t.count - 1) } := by
  obtain ⟨hsz, hct, hrel, _⟩ := ht_delete_loop_done K fuel t 0 t' h
  have hitems : t'.items = t.items := by
    apply List.ext_getElem?
    intro n
    rcases hrel (n : Int) with h' | ⟨⟨v, hv⟩, _⟩
    · simpa [readSlot_natCast] using h'
    · have := hK _ (readSlot_mem hv)
      simp [holdsKey] at this
  cases t'
  simp only at hsz hct hitems
  simp [hsz, hct, hitems]

/-- C5 at a failing input: no bucket of the fresh table holds `"a"`, and
`ht_delete` of `"a"` returns the table with `count` changed from 0 to -1. -/
theorem delete_absent_changes_count :
    (∀ s ∈ ht_new.items, holdsKey (cstr "a") s = false) ∧
      ht_new.count = 0 ∧
      ht_delete 1 ht_new (cstr "a") =
        Outcome.done { size := 53, count := -1, items := ht_new.items } :=
  ⟨by decide, by rfl, by rfl⟩

/-! ## Probe sequences that stay on one bucket -/

/-- For 53 buckets, when the second hash of a key is 52 the step `hash_b + 1`
is 53 and, as long as the `int` sum does not overflow (attempts below
40518559), every probe of the key is the bucket of its first hash. -/
theorem ht_get_hash_stall (s : CString) (h2 : ht_hash s HT_PRIME_2 53 = 52)
    (h1 : 0 ≤ ht_hash s HT_PRIME_1 53 ∧ ht_hash s HT_PRIME_1 53 < 53) (n : Nat)
    (hn : n < 40518559) :
    ht_get_hash s 53 (n : Int) = ht_hash s HT_PRIME_1 53 := by
  have e1 : wrapInt (52 + 1) = 53 := by rfl
  have e2 : wrapInt (n : Int) = n := wrapInt_of_range (by omega) (by omega)
  have e3 : wrapInt ((n : Int) * 53) = n * 53 := wrapInt_of_range (by omega) (by omega)
  have e4 : wrapInt (ht_hash s HT_PRIME_1 53 + (n : Int) * 53) =
      ht_hash s HT_PRIME_1 53 + (n : Int) * 53 :=
    wrapInt_of_range (by omega) (by omega)
  unfold ht_get_hash
  simp only [h2, e1, e2, e3, e4]
  rw [Int.tmod_eq_emod (by omega) (by norm_num)]
  omega

/-- When the first `N` probes of `key` are the same bucket and the walk goes
past that bucket, the loop shared by `ht_insert` and `ht_search` is still
running after up to `N` reads. -/
theorem probeStop_stalls {key : CString} {ht : ht_hash_table} {index : Int} {s : Slot}
    {N : Nat} (hidx : ∀ n : Nat, n < N → ht_get_hash key ht.size (n : Int) = index)
    (hrd : readSlot ht.items index = some s) (hp : passes key s) :
    ∀ (fuel a : Nat), a + fuel ≤ N → probeStop key fuel ht a = Outcome.outOfFuel := by
  intro fuel
  induction fuel with
  | zero => intro a _; rfl
  | succ n ih =>
    intro a ha
    have hi := hidx a (by omega)
    have hnext := ih (a + 1) (by omega)
    cases s with
    | empty => exact absurd hp (by simp [passes])
    | deleted => simp [probeStop, hi, hrd, hnext]
    | item k v =>
      have hk : k ≠ key := hp
      simp [probeStop, hi, hrd, hk, hnext]

/-- When the first `N` probes of `key` are the same bucket, which the walk
goes past, and probe `N` is outside the bucket array, the loop shared by
`ht_insert` and `ht_search` reads outside the array at its read `N + 1`. -/
theorem probeStop_leaves_array {key : CString} {ht : ht_hash_table} {index : Int}
    {s : Slot} {N : Nat}
    (hidx : ∀ n : Nat, n < N → ht_get_hash key ht.size (n : Int) = index)
    (hrd : readSlot ht.items index = some s) (hp : passes key s)
    (hout : readSlot ht.items (ht_get_hash key ht.size (N : Int)) = none) :
    ∀ (fuel a : Nat), a ≤ N → N < a + fuel →
      probeStop key fuel ht a = Outcome.outOfBounds := by
  intro fuel
  induction fuel with
  | zero => intro a h1 h2; omega
  | succ n ih =>
    intro a h1 h2
    by_cases haN : a = N
    · subst haN
      simp [probeStop, hout]
    · have hi := hidx a (by omega)
      have hnext := ih (a + 1) (by omega) (by omega)
      cases s with
      | empty => exact absurd hp (by simp [passes])
      | deleted => simp [probeStop, hi, hrd, hnext]
      | item k v =>
        have hk : k ≠ key := hp
        simp [probeStop, hi, hrd, hk, hnext]

/-- When the first `N` probes of `key` are the same bucket and that bucket is
not `NULL`, the loop of `ht_delete` is still running after up to `N` reads. -/
theorem ht_delete_loop_stalls {key : CString} {index : Int} {N : Nat} :
    ∀ (fuel : Nat) (ht : ht_hash_table) (a : Nat) (s : Slot),
      (∀ n : Nat, n < N → ht_get_hash key ht.size (n : Int) = index) →
      readSlot ht.items index = some s → s ≠ Slot.empty → a + fuel ≤ N →
      ht_delete_loop key fuel ht a = Outcome.outOfFuel := by
  intro fuel
  induction fuel with
  | zero => intro ht a s _ _ _ _; rfl
  | succ n ih =>
    intro ht a s hidx hrd hne ha
    have hi := hidx a (by omega)
    cases s with
    | empty => exact absurd rfl hne
    | deleted =>
      simp only [ht_delete_loop, hi, hrd]
      exact ih ht (a + 1) Slot.deleted hidx hrd hne (by omega)
    | item k v =>
      by_cases hk : k = key
      · simp only [ht_delete_loop, hi, hrd, hk, if_true]
        exact ih _ (a + 1) Slot.deleted hidx (readSlot_writeSlot_same hrd) (by simp)
          (by omega)
      · simp only [ht_delete_loop, hi, hrd, hk, if_false]
        exact ih ht (a + 1) (Slot.item k v) hidx hrd hne (by omega)

/-- When the first `N` probes of `key` are the same bucket, which is not
`NULL`, and probe `N` is outside the bucket array, the loop of `ht_delete`
reads outside the array at its read `N + 1`. -/
theorem ht_delete_loop_leaves_array {key : CString} {index : Int} {N : Nat} :
    ∀ (fuel : Nat) (ht : ht_hash_table) (a : Nat) (s : Slot),
      (∀ n : Nat, n < N → ht_get_hash key ht.size (n : Int) = index) →
      readSlot ht.items index = some s → s ≠ Slot.empty →
      readSlot ht.items (ht_get_hash key ht.size (N : Int)) = none →
      a ≤ N → N < a + fuel →
      ht_delete_loop key fuel ht a = Outcome.outOfBounds := by
  intro fuel
  induction fuel with
  | zero => intro ht a s _ _ _ _ h1 h2; omega
  | succ n ih =>
    intro ht a s hidx hrd hne hout h1 h2
    by_cases haN : a = N
    · subst haN
      simp [ht_delete_loop, hout]
    · have hi := hidx a (by omega)
      cases s with
      | empty => exact absurd rfl hne
      | deleted =>
        simp only [ht_delete_loop, hi, hrd]
        exact ih ht (a + 1) Slot.deleted hidx hrd hne hout (by omega) (by omega)
      | item k v =>
        by_cases hk : k = key
        · simp only [ht_delete_loop, hi, hrd, hk, if_true]
          have hne' : ht_get_hash key ht.size (N : Int) ≠ index := by
            intro he
            rw [he, hrd] at hout
            cases hout
          refine ih _ (a + 1) Slot.deleted hidx (readSlot_writeSlot_same hrd) (by simp) ?_
            (by omega) (by omega)
          show readSlot (writeSlot ht.items index Slot.deleted) _ = none
          rw [readSlot_writeSlot_other hrd hne']
          exact hout
        · simp only [ht_delete_loop, hi, hrd, hk, if_false]
          exact ih ht (a + 1) (Slot.item k v) hidx hrd hne hout (by omega) (by omega)

/-- The first 40518559 probes of the key `"4"` in a table of 53 buckets are
bucket 52. -/
theorem probe_four (n : Nat) (hn : n < 40518559) : ht_get_hash (cstr "4") 53 (n : Int) = 52 :=
  ht_get_hash_stall (cstr "4") (by rfl) (by decide) n hn

/-- The first 40518559 probes of the key `"i"` in a table of 53 buckets are
bucket 52. -/
theorem probe_i (n : Nat) (hn : n < 40518559) : ht_get_hash (cstr "i") 53 (n : Int) = 52 :=
  ht_get_hash_stall (cstr "i") (by rfl) (by decide) n hn

/-- At attempt 40518559 the `int` sum `52 + 40518559 * 53` overflows and the
probe index of `"4"` and of `"i"` is -43, which is not a bucket of a table
with 53 buckets. -/
theorem probe_overflow :
    ht_get_hash (cstr "4") 53 ((40518559 : Nat) : Int) = -43 ∧
      ht_get_hash (cstr "i") 53 ((40518559 : Nat) : Int) = -43 ∧
      readSlot (oneSlot 52 (Slot.item (cstr "4") (cstr "x")) 1).items (-43) = none := by
  refine ⟨by rfl, by rfl, by rfl⟩

/-- On the table that holds `"4"` only, `ht_delete ("4")` is still probing
bucket 52 after up to 40518559 bucket reads. -/
theorem four_delete_stalls (fuel : Nat) (hf : fuel ≤ 40518559) :
    ht_delete fuel (oneSlot 52 (Slot.item (cstr "4") (cstr "x")) 1) (cstr "4") =
      Outcome.outOfFuel := by
  unfold ht_delete
  have hidx : ∀ n : Nat, n < 40518559 →
      ht_get_hash (cstr "4") (oneSlot 52 (Slot.item (cstr "4") (cstr "x")) 1).size
        (n : Int) = 52 := probe_four
  exact ht_delete_loop_stalls fuel (oneSlot 52 (Slot.item (cstr "4") (cstr "x")) 1) 0
    (Slot.item (cstr "4") (cstr "x")) hidx (by rfl) (by simp) (by omega)

/-- On the table that holds `"4"` only, `ht_delete ("4")` makes its read number
40518560 outside the bucket array. -/
theorem four_delete_leaves_array (fuel : Nat) (hf : 40518559 < fuel) :
    ht_delete fuel (oneSlot 52 (Slot.item (cstr "4") (cstr "x")) 1) (cstr "4") =
      Outcome.outOfBounds := by
  unfold ht_delete
  have hidx : ∀ n : Nat, n < 40518559 →
      ht_get_hash (cstr "4") (oneSlot 52 (Slot.item (cstr "4") (cstr "x")) 1).size
        (n : Int) = 52 := probe_four
  have hout : readSlot (oneSlot 52 (Slot.item (cstr "4") (cstr "x")) 1).items
      (ht_get_hash (cstr "4") (oneSlot 52 (Slot.item (cstr "4") (cstr "x")) 1).size
        ((40518559 : Nat) : Int)) = none := by
    show readSlot _ (ht_get_hash (cstr "4") 53 ((40518559 : Nat) : Int)) = none
    rw [probe_overflow.1]
    exact probe_overflow.2.2
  exact ht_delete_loop_leaves_array fuel (oneSlot 52 (Slot.item (cstr "4") (cstr "x")) 1) 0
    (Slot.item (cstr "4") (cstr "x")) hidx (by rfl) (by simp) hout (by omega) (by omega)

/-- On the table that holds `"4"` only, the loop of `ht_search ("i")` and
`ht_insert ("i", ...)` is still probing bucket 52 after up to 40518559 bucket
reads. -/
theorem i_probe_stalls (fuel : Nat) (hf : fuel ≤ 40518559) :
    probeStop (cstr "i") fuel (oneSlot 52 (Slot.item (cstr "4") (cstr "x")) 1) 0 =
      Outcome.outOfFuel := by
  have hidx : ∀ n : Nat, n < 40518559 →
      ht_get_hash (cstr "i") (oneSlot 52 (Slot.item (cstr "4") (cstr "x")) 1).size
        (n : Int) = 52 := probe_i
  have hrd : readSlot (oneSlot 52 (Slot.item (cstr "4") (cstr "x")) 1).items 52 =
      some (Slot.item (cstr "4") (cstr "x")) := by rfl
  have hp : passes (cstr "i") (Slot.item (cstr "4") (cstr "x")) := by
    show cstr "4" ≠ cstr "i"
    decide
  exact probeStop_stalls hidx hrd hp fuel 0 (by omega)

/-- On the table that holds `"4"` only, the loop of `ht_search ("i")` and
`ht_insert ("i", ...)` makes its read number 40518560 outside the bucket
array. -/
theorem i_probe_leaves_array (fuel : Nat) (hf : 40518559 < fuel) :
    probeStop (cstr "i") fuel (oneSlot 52 (Slot.item (cstr "4") (cstr "x")) 1) 0 =
      Outcome.outOfBounds := by
  have hidx : ∀ n : Nat, n < 40518559 →
      ht_get_hash (cstr "i") (oneSlot 52 (Slot.item (cstr "4") (cstr "x")) 1).size
        (n : Int) = 52 := probe_i
  have hrd : readSlot (oneSlot 52 (Slot.item (cstr "4") (cstr "x")) 1).items 52 =
      some (Slot.item (cstr "4") (cstr "x")) := by rfl
  have hp : passes (cstr "i") (Slot.item (cstr "4") (cstr "x")) := by
    show cstr "4" ≠ cstr "i"
    decide
  have hout : readSlot (oneSlot 52 (Slot.item (cstr "4") (cstr "x")) 1).items
      (ht_get_hash (cstr "i") (oneSlot 52 (Slot.item (cstr "4") (cstr "x")) 1).size
        ((40518559 : Nat) : Int)) = none := by
    show readSlot _ (ht_get_hash (cstr "i") 53 ((40518559 : Nat) : Int)) = none
    rw [probe_overflow.2.1]
    exact probe_overflow.2.2
  exact probeStop_leaves_array hidx hrd hp hout fuel 0 (by omega) (by omega)

/-- C6 at a failing input: after `ht_insert ("4", "x")` on a fresh table, 52
of the 53 buckets are `NULL`, yet none of `ht_delete ("4")`, `ht_search ("i")`
and `ht_insert ("i", "y")` completes: each is still probing bucket 52 after up
to 40518559 bucket reads, and with its next read, at index -43, it leaves the
bucket array. -/
theorem stall_with_empty_buckets :
    ht_insert 1 ht_new (cstr "4") (cstr "x") =
        Outcome.done (oneSlot 52 (Slot.item (cstr "4") (cstr "x")) 1) ∧
      (oneSlot 52 (Slot.item (cstr "4") (cstr "x")) 1).size = 53 ∧
      (oneSlot 52 (Slot.item (cstr "4") (cstr "x")) 1).items.length = 53 ∧
      emptyCount (oneSlot 52 (Slot.item (cstr "4") (cstr "x")) 1).items = 52 ∧
      (∀ fuel : Nat, fuel ≤ 40518559 →
        ht_delete fuel (oneSlot 52 (Slot.item (cstr "4") (cstr "x")) 1) (cstr "4") =
            Outcome.outOfFuel ∧
          ht_search fuel (oneSlot 52 (Slot.item (cstr "4") (cstr "x")) 1) (cstr "i") =
            Outcome.outOfFuel ∧
          ht_insert fuel (oneSlot 52 (Slot.item (cstr "4") (cstr "x")) 1) (cstr "i")
              (cstr "y") = Outcome.outOfFuel) ∧
      (∀ fuel : Nat, 40518559 < fuel →
        ht_delete fuel (oneSlot 52 (Slot.item (cstr "4") (cstr "x")) 1) (cstr "4") =
            Outcome.outOfBounds ∧
          ht_search fuel (oneSlot 52 (Slot.item (cstr "4") (cstr "x")) 1) (cstr "i") =
            Outcome.outOfBounds ∧
          ht_insert fuel (oneSlot 52 (Slot.item (cstr "4") (cstr "x")) 1) (cstr "i")
              (cstr "y") = Outcome.outOfBounds) := by
  refine ⟨by rfl, by rfl, by rfl, by rfl, ?_, ?_⟩
  · intro fuel hf
    refine ⟨four_delete_stalls fuel hf, ?_, ?_⟩
    · unfold ht_search
      rw [ht_search_loop_eq, i_probe_stalls fuel hf]
      rfl
    · unfold ht_insert
      rw [ht_insert_loop_eq, i_probe_stalls fuel hf]
      rfl
  · intro fuel hf
    refine ⟨four_delete_leaves_array fuel hf, ?_, ?_⟩
    · unfold ht_search
      rw [ht_search_loop_eq, i_probe_leaves_array fuel hf]
      rfl
    · unfold ht_insert
      rw [ht_insert_loop_eq, i_probe_leaves_array fuel hf]
      rfl

/-- C7 at a failing input: the distinct keys `"4"` and `"i"` have the same
initial probe index; on a fresh table `ht_insert ("4", "x")` completes, but
`ht_insert ("i", "y")` does not: it is still probing bucket 52, which holds
`"4"`, after up to 40518559 bucket reads, and with its next read, at index
-43, it leaves the bucket array. -/
theorem colliding_insert_stalls :
    cstr "4" ≠ cstr "i" ∧
      ht_get_hash (cstr "4") 53 0 = ht_get_hash (cstr "i") 53 0 ∧
      ht_insert 1 ht_new (cstr "4") (cstr "x") =
        Outcome.done (oneSlot 52 (Slot.item (cstr "4") (cstr "x")) 1) ∧
      (∀ fuel : Nat, fuel ≤ 40518559 →
        ht_insert fuel (oneSlot 52 (Slot.item (cstr "4") (cstr "x")) 1) (cstr "i")
            (cstr "y") = Outcome.outOfFuel) ∧
      ∀ fuel : Nat, 40518559 < fuel →
        ht_insert fuel (oneSlot 52 (Slot.item (cstr "4") (cstr "x")) 1) (cstr "i")
            (cstr "y") = Outcome.outOfBounds := by
  refine ⟨by decide, by rfl, by rfl, ?_, ?_⟩
  · intro fuel hf
    unfold ht_insert
    rw [ht_insert_loop_eq, i_probe_stalls fuel hf]
    rfl
  · intro fuel hf
    unfold ht_insert
    rw [ht_insert_loop_eq, i_probe_leaves_array fuel hf]
    rfl

/-- C13 at a failing input: for the key `"4"` and 53 buckets the second hash
is 52, the step `hash_b + 1` is 53, which is 0 modulo 53, and the probe
indices of any two consecutive attempts below 40518559 (where the `int` sum
overflows) are equal: both are bucket 52. -/
theorem probe_step_zero :
    ht_hash (cstr "4") HT_PRIME_2 53 = 52 ∧
      Int.tmod (ht_hash (cstr "4") HT_PRIME_2 53 + 1) 53 = 0 ∧
      ∀ i : Nat, i + 1 < 40518559 →
        ht_get_hash (cstr "4") 53 (i : Int) = 52 ∧
        ht_get_hash (cstr "4") 53 ((i : Int) + 1) = 52 ∧
        ht_get_hash (cstr "4") 53 (i : Int) = ht_get_hash (cstr "4") 53 ((i : Int) + 1) := by
  refine ⟨by rfl, by rfl, ?_⟩
  intro i hi
  have h1 := probe_four i (by omega)
  have h2 := probe_four (i + 1) hi
  push_cast at h2
  exact ⟨h1, h2, h1.trans h2.symm⟩

/-- C15 at a failing input: the key `"4"` has a non-negative character code,
53 is positive and 40518559 is a non-negative `int`, yet
`ht_get_hash ("4", 53, 40518559)` is -43; the loops reach this attempt: on the
table that holds `"4"` only, `ht_delete ("4")`, `ht_search ("i")` and
`ht_insert ("i", "y")` make their read number 40518560 at `items[-43]`,
outside the bucket array. -/
theorem bucket_index_out_of_range :
    (∀ c ∈ cstr "4", 0 ≤ c) ∧ (0 : Int) < 53 ∧
      (0 : Int) ≤ 40518559 ∧ (40518559 : Int) < 2 ^ 31 ∧
      ht_get_hash (cstr "4") 53 40518559 = -43 ∧
      readSlot (oneSlot 52 (Slot.item (cstr "4") (cstr "x")) 1).items (-43) = none ∧
      (∀ fuel : Nat, 40518559 < fuel →
        ht_delete fuel (oneSlot 52 (Slot.item (cstr "4") (cstr "x")) 1) (cstr "4") =
            Outcome.outOfBounds ∧
          ht_search fuel (oneSlot 52 (Slot.item (cstr "4") (cstr "x")) 1) (cstr "i") =
            Outcome.outOfBounds ∧
          ht_insert fuel (oneSlot 52 (Slot.item (cstr "4") (cstr "x")) 1) (cstr "i")
              (cstr "y") = Outcome.outOfBounds) := by
  refine ⟨by decide, by decide, by decide, by decide, by rfl, by rfl, ?_⟩
  intro fuel hf
  refine ⟨four_delete_leaves_array fuel hf, ?_, ?_⟩
  · unfold ht_search
    rw [ht_search_loop_eq, i_probe_leaves_array fuel hf]
    rfl
  · unfold ht_insert
    rw [ht_insert_loop_eq, i_probe_leaves_array fuel hf]
    rfl

/-! ## Invariants of reachable tables -/

/-- The buckets after a completed `ht_insert` loop: one bucket was overwritten
with the new item. -/
theorem ht_insert_loop_items {key value : CString} {fuel : Nat} {ht ht' : ht_hash_table}
    {a : Nat} (h : ht_insert_loop key value fuel ht a = Outcome.done ht') :
    ∃ index : Int, ht'.items = writeSlot ht.items index (Slot.item key value) := by
  obtain ⟨j, _, _, _, hcase⟩ := (ht_insert_loop_done_iff key value fuel ht a ht').mp h
  rcases hcase with ⟨_, rfl⟩ | ⟨_, rfl⟩ <;> exact ⟨_, rfl⟩

/-- No bucket of a table holds `K` when the table was built without inserting
`K`. -/
theorem ReachableWithout.absent {K : CString} {t : ht_hash_table}
    (h : ReachableWithout K t) : ∀ s ∈ t.items, holdsKey K s = false := by
  induction h with
  | new =>
    intro s hs
    have : s = Slot.empty := List.eq_of_mem_replicate hs
    subst this
    rfl
  | insert t t' fuel key value _ hne hins ih =>
    intro s hs
    obtain ⟨index, hitems⟩ := ht_insert_loop_items hins
    rw [hitems] at hs
    rcases List.mem_or_eq_of_mem_set hs with hmem | rfl
    · exact ih s hmem
    · simp [holdsKey, hne]
  | delete t t' fuel key _ hdel ih =>
    intro s hs
    obtain ⟨_, _, hrel, _⟩ := ht_delete_loop_done key fuel t 0 t' hdel
    obtain ⟨n, hn⟩ := List.mem_iff_getElem?.mp hs
    rw [← readSlot_natCast] at hn
    rcases hrel (n : Int) with h' | ⟨_, hd⟩
    · rw [h'] at hn
      exact ih s (readSlot_mem hn)
    · rw [hd] at hn
      cases hn
      rfl

/-- C9 (absent keys are reported absent): in every table reached from
`ht_new ()` by completed `ht_insert` and `ht_delete` calls none of which
inserts `K`, `ht_search (K)` never returns a value, whatever the bound on the
bucket reads. -/
theorem search_never_inserted (K : CString) (t : ht_hash_table)
    (h : ReachableWithout K t) :
    ∀ (fuel : Nat) (v : CString), ht_search fuel t K ≠ Outcome.done (some v) := by
  intro fuel v hs
  obtain ⟨j, _, _, _, hcase⟩ := (ht_search_loop_done_iff K fuel t 0 (some v)).mp hs
  rcases hcase with ⟨_, hnone⟩ | ⟨w, hrd, _⟩
  · cases hnone
  · have := h.absent _ (readSlot_mem hrd)
    simp [holdsKey] at this

/-- Witness of C9: the table holding only `"a"` is reached without inserting
`","`; the search for `","`, which starts on the bucket of `"a"`, returns
`NULL` and never a value. -/
theorem search_never_inserted_witness :
    ReachableWithout (cstr ",") (oneSlot 44 (Slot.item (cstr "a") (cstr "x")) 1) ∧
      ht_search 2 (oneSlot 44 (Slot.item (cstr "a") (cstr "x")) 1) (cstr ",") =
        Outcome.done none ∧
      ∀ (fuel : Nat) (v : CString),
        ht_search fuel (oneSlot 44 (Slot.item (cstr "a") (cstr "x")) 1) (cstr ",") ≠
          Outcome.done (some v) :=
  ⟨ReachableWithout.insert ht_new _ 1 (cstr "a") (cstr "x")
      ReachableWithout.new (by decide) (by rfl),
    by rfl,
    search_never_inserted (cstr ",") (oneSlot 44 (Slot.item (cstr "a") (cstr "x")) 1)
      (ReachableWithout.insert ht_new _ 1 (cstr "a") (cstr "x")
        ReachableWithout.new (by decide) (by rfl))⟩

/-- Overwriting a bucket with something other than `NULL` lowers the number of
`NULL` buckets by one when the bucket was `NULL` and keeps it otherwise. -/
theorem emptyCount_writeSlot {items : List Slot} {index : Int} {s x : Slot}
    (hrd : readSlot items index = some s) (hx : x ≠ Slot.empty) :
    emptyCount (writeSlot items index x) + (if s = Slot.empty then 1 else 0) =
      emptyCount items := by
  obtain ⟨h0, hlt⟩ := readSlot_some_bounds hrd
  have hmem := readSlot_mem hrd
  have hget : items[index.toNat] = s := by
    simpa [readSlot, h0, List.getElem?_eq_getElem hlt] using hrd
  unfold emptyCount writeSlot
  rw [List.count_set _ _ _ _ hlt, hget]
  by_cases hs : s = Slot.empty
  · subst hs
    have hpos : 0 < List.count Slot.empty items := List.count_pos_iff.mpr hmem
    simp [hx]
    omega
  · simp [hx, hs]

/-- The loop of `ht_delete` keeps the number of `NULL` buckets. -/
theorem ht_delete_loop_emptyCount (key : CString) :
    ∀ (fuel : Nat) (ht : ht_hash_table) (a : Nat) (ht' : ht_hash_table),
      ht_delete_loop key fuel ht a = Outcome.done ht' →
      emptyCount ht'.items = emptyCount ht.items := by
  intro fuel
  induction fuel with
  | zero => intro ht a ht' h; simp [ht_delete_loop] at h
  | succ n ih =>
    intro ht a ht' h
    cases hr : readSlot ht.items (ht_get_hash key ht.size a) with
    | none => simp [ht_delete_loop, hr] at h
    | some s =>
      cases s with
      | empty =>
        simp only [ht_delete_loop, hr, Outcome.done.injEq] at h
        subst h
        rfl
      | deleted =>
        simp only [ht_delete_loop, hr] at h
        exact ih ht (a + 1) ht' h
      | item k v =>
        by_cases hk : k = key
        · simp only [ht_delete_loop, hr, hk, if_true] at h
          rw [ih _ (a + 1) ht' h]
          have := emptyCount_writeSlot (x := Slot.deleted) hr (by simp)
          simpa using this
        · simp only [ht_delete_loop, hr, hk, if_false] at h
          exact ih ht (a + 1) ht' h

/-- C10 at a failing input: the table reached from `ht_new ()` by 2147483649
completed calls of `ht_delete ("a")`, none of which removes anything, has
`count = 2147483647` and `size = 53`: the unconditional decrement has taken
`count` down to `INT_MIN` and the next one has overflowed. -/
theorem count_exceeds_size :
    wrapInt (-((2147483649 : Nat) : Int)) = 2147483647 ∧
      Reachable { size := 53, count := 2147483647, items := ht_new.items } ∧
      ({ size := 53, count := 2147483647, items := ht_new.items } : ht_hash_table).size =
        53 ∧
      ¬ ({ size := 53, count := 2147483647, items := ht_new.items } : ht_hash_table).count ≤
        ({ size := 53, count := 2147483647, items := ht_new.items } : ht_hash_table).size := by
  exact ⟨by rfl, reachable_count_int_max, rfl, by decide⟩

/-! ## Runs of inserts and deletes -/

/-- The `int` value of an integer differs from it by a multiple of `2^32`. -/
theorem wrapInt_sub_dvd (x : Int) : (4294967296 : Int) ∣ wrapInt x - x := by
  unfold wrapInt
  norm_num
  omega

/-- Completed inserts of pairwise distinct keys, none of them held by a bucket
at the start, raise `count` by the number of keys, as an `int`. -/
theorem insertsAll_count {t t1 : ht_hash_table} {kvs : List (CString × CString)}
    (h : InsertsAll t kvs t1) :
    (∀ k ∈ kvs.map Prod.fst, ∀ s ∈ t.items, holdsKey k s = false) →
    (kvs.map Prod.fst).Nodup →
    (4294967296 : Int) ∣ t1.count - (t.count + (kvs.length : Int)) ∧
      ((-2147483648 ≤ t.count ∧ t.count < 2147483648) →
        (-2147483648 ≤ t1.count ∧ t1.count < 2147483648)) := by
  induction h with
  | nil t => intro _ _; simp
  | cons t t1 t' fuel key value rest hins _ ih =>
    intro habs hnd
    simp only [List.map_cons, List.nodup_cons] at hnd
    have hkey : ∀ s ∈ t.items, holdsKey key s = false :=
      habs key (by simp)
    obtain ⟨j, _, _, _, hcase⟩ := (ht_insert_loop_done_iff key value fuel t 0 t1).mp hins
    have ht1 : t1 = { t with
        items := writeSlot t.items (ht_get_hash key t.size j) (Slot.item key value),
        count := wrapInt (t.count + 1) } := by
      rcases hcase with ⟨_, h⟩ | ⟨⟨v, hrd⟩, _⟩
      · exact h
      · have := hkey _ (readSlot_mem hrd)
        simp [holdsKey] at this
    have habs1 : ∀ k ∈ rest.map Prod.fst, ∀ s ∈ t1.items, holdsKey k s = false := by
      intro k hk s hs
      rw [ht1] at hs
      rcases List.mem_or_eq_of_mem_set hs with hmem | rfl
      · exact habs k (by simp only [List.map_cons]; exact List.mem_cons_of_mem _ hk) s hmem
      · have hne : key ≠ k := fun he => hnd.1 (he ▸ hk)
        simp [holdsKey, hne]
    obtain ⟨hdvd, hrange⟩ := ih habs1 hnd.2
    have hc : t1.count = wrapInt (t.count + 1) := by rw [ht1]
    have hw := wrapInt_sub_dvd (t.count + 1)
    have hr := wrapInt_range (t.count + 1)
    norm_num at hr
    rw [hc] at hdvd hrange
    simp only [List.length_cons, Nat.cast_add, Nat.cast_one]
    constructor
    · omega
    · intro _
      exact hrange hr

/-- Completed deletes lower `count` by the number of calls, as an `int`. -/
theorem deletesAll_count {t t1 : ht_hash_table} {ds : List CString}
    (h : DeletesAll t ds t1) :
    (4294967296 : Int) ∣ t1.count - (t.count - (ds.length : Int)) ∧
      ((-2147483648 ≤ t.count ∧ t.count < 2147483648) →
        (-2147483648 ≤ t1.count ∧ t1.count < 2147483648)) := by
  induction h with
  | nil t => simp
  | cons t t1 t' fuel key rest hdel _ ih =>
    obtain ⟨_, hct, _, _⟩ := ht_delete_loop_done key fuel t 0 t1 hdel
    obtain ⟨hdvd, hrange⟩ := ih
    have hw := wrapInt_sub_dvd (t.count - 1)
    have hr := wrapInt_range (t.count - 1)
    norm_num at hr
    rw [hct] at hdvd hrange
    simp only [List.length_cons, Nat.cast_add, Nat.cast_one]
    constructor
    · omega
    · intro _
      exact hrange hr

/-- C11 (count returns to zero): starting from a fresh table, completed
inserts of N pairwise distinct keys followed by completed deletes of each of
these keys, in any order, leave `count = 0`. -/
theorem count_returns_to_zero (kvs : List (CString × CString)) (ds : List CString)
    (t1 t2 : ht_hash_table) (hnd : (kvs.map Prod.fst).Nodup)
    (hperm : ds.Perm (kvs.map Prod.fst))
    (hins : InsertsAll ht_new kvs t1) (hdel : DeletesAll t1 ds t2) :
    t2.count = 0 := by
  have hnew : ∀ k ∈ kvs.map Prod.fst, ∀ s ∈ ht_new.items, holdsKey k s = false := by
    intro k _ s hs
    have : s = Slot.empty := List.eq_of_mem_replicate hs
    subst this
    rfl
  obtain ⟨hd1, hr1⟩ := insertsAll_count hins hnew hnd
  obtain ⟨hd2, hr2⟩ := deletesAll_count hdel
  have hlen : ds.length = kvs.length := by
    rw [hperm.length_eq, List.length_map]
  have h0 : ht_new.count = 0 := rfl
  rw [h0] at hd1 hr1
  rw [hlen] at hd2
  have hr1' := hr1 (by omega)
  have hr2' := hr2 hr1'
  omega

/-- The two inserts of the run used below: `"a"` goes to bucket 44 and `","`,
which collides with it, to bucket 36. -/
theorem run_inserts :
    InsertsAll ht_new [(cstr "a", cstr "x"), (cstr ",", cstr "y")]
      (twoSlots 44 (Slot.item (cstr "a") (cstr "x")) 36
        (Slot.item (cstr ",") (cstr "y")) 2) :=
  InsertsAll.cons _ (oneSlot 44 (Slot.item (cstr "a") (cstr "x")) 1) _ 1 _ _ _ (by rfl)
    (InsertsAll.cons _ _ _ 2 _ _ _ (by rfl) (InsertsAll.nil _))

/-- The two deletes of the run used below, in the other order; both buckets
end up holding the sentinel. -/
theorem run_deletes :
    DeletesAll
      (twoSlots 44 (Slot.item (cstr "a") (cstr "x")) 36
        (Slot.item (cstr ",") (cstr "y")) 2)
      [cstr ",", cstr "a"] (twoSlots 44 Slot.deleted 36 Slot.deleted 0) :=
  DeletesAll.cons _ (twoSlots 44 (Slot.item (cstr "a") (cstr "x")) 36 Slot.deleted 1) _ 3
    _ _ (by rfl) (DeletesAll.cons _ _ _ 3 _ _ (by rfl) (DeletesAll.nil _))

/-- Witness of C11: `"a"` and `","` are inserted in a fresh table and then
deleted in the other order; the count ends at 0. -/
theorem count_returns_to_zero_witness :
    InsertsAll ht_new [(cstr "a", cstr "x"), (cstr ",", cstr "y")]
        (twoSlots 44 (Slot.item (cstr "a") (cstr "x")) 36
          (Slot.item (cstr ",") (cstr "y")) 2) ∧
      DeletesAll
        (twoSlots 44 (Slot.item (cstr "a") (cstr "x")) 36
          (Slot.item (cstr ",") (cstr "y")) 2)
        [cstr ",", cstr "a"] (twoSlots 44 Slot.deleted 36 Slot.deleted 0) ∧
      (twoSlots 44 Slot.deleted 36 Slot.deleted 0).count = 0 :=
  ⟨run_inserts, run_deletes,
    count_returns_to_zero [(cstr "a", cstr "x"), (cstr ",", cstr "y")]
      [cstr ",", cstr "a"]
      (twoSlots 44 (Slot.item (cstr "a") (cstr "x")) 36 (Slot.item (cstr ",") (cstr "y")) 2)
      (twoSlots 44 Slot.deleted 36 Slot.deleted 0)
      (by decide) (List.Perm.swap _ _ _) run_inserts run_deletes⟩

/-- C12 (update in place): in every table where `ht_search (K)` finds `K`, in
the bucket of some probe `j` with value `v`, `ht_insert (K, V)` completes and
changes that bucket only, which afterwards holds `(K, V)`; every other bucket,
the number of buckets, `count` and `size` are unchanged. -/
theorem insert_existing_in_place (t : ht_hash_table) (K V v : CString) (fuel : Nat)
    (h : ht_search fuel t K = Outcome.done (some v)) :
    ∃ (j : Nat) (t' : ht_hash_table), j < fuel ∧
      readSlot t.items (ht_get_hash K t.size j) = some (Slot.item K v) ∧
      ht_insert fuel t K V = Outcome.done t' ∧
      readSlot t'.items (ht_get_hash K t.size j) = some (Slot.item K V) ∧
      (∀ i : Int, i ≠ ht_get_hash K t.size j → readSlot t'.items i = readSlot t.items i) ∧
      t'.items.length = t.items.length ∧ t'.count = t.count ∧ t'.size = t.size := by
  obtain ⟨j, h1, h2, hw, hcase⟩ := (ht_search_loop_done_iff K fuel t 0 (some v)).mp h
  rcases hcase with ⟨_, hnone⟩ | ⟨w, hrd, hw'⟩
  · cases hnone
  · cases hw'
    refine ⟨j, { t with
        items := writeSlot t.items (ht_get_hash K t.size j) (Slot.item K V) },
      by omega, hrd, ?_, readSlot_writeSlot_same hrd, ?_, ?_, rfl, rfl⟩
    · exact (ht_insert_loop_done_iff K V fuel t 0 _).mpr
        ⟨j, h1, h2, hw, Or.inr ⟨⟨v, hrd⟩, rfl⟩⟩
    · intro i hi
      exact readSlot_writeSlot_other hrd hi
    · simp [writeSlot]

/-- Witness of C12: with `"a"` in bucket 44 and value `"x"`, the search finds
it and inserting `"a"` with `"y"` rewrites bucket 44 only. -/
theorem insert_existing_in_place_witness :
    ht_insert 1 ht_new (cstr "a") (cstr "x") =
        Outcome.done (oneSlot 44 (Slot.item (cstr "a") (cstr "x")) 1) ∧
      ht_search 1 (oneSlot 44 (Slot.item (cstr "a") (cstr "x")) 1) (cstr "a") =
        Outcome.done (some (cstr "x")) ∧
      ht_insert 1 (oneSlot 44 (Slot.item (cstr "a") (cstr "x")) 1) (cstr "a") (cstr "y") =
        Outcome.done (oneSlot 44 (Slot.item (cstr "a") (cstr "y")) 1) ∧
      ∃ (j : Nat) (t' : ht_hash_table), j < 1 ∧
        readSlot (oneSlot 44 (Slot.item (cstr "a") (cstr "x")) 1).items
            (ht_get_hash (cstr "a") (oneSlot 44 (Slot.item (cstr "a") (cstr "x")) 1).size j) =
          some (Slot.item (cstr "a") (cstr "x")) ∧
        ht_insert 1 (oneSlot 44 (Slot.item (cstr "a") (cstr "x")) 1) (cstr "a") (cstr "y") =
          Outcome.done t' ∧
        readSlot t'.items
            (ht_get_hash (cstr "a") (oneSlot 44 (Slot.item (cstr "a") (cstr "x")) 1).size j) =
          some (Slot.item (cstr "a") (cstr "y")) ∧
        (∀ i : Int,
          i ≠ ht_get_hash (cstr "a") (oneSlot 44 (Slot.item (cstr "a") (cstr "x")) 1).size j →
          readSlot t'.items i =
            readSlot (oneSlot 44 (Slot.item (cstr "a") (cstr "x")) 1).items i) ∧
        t'.items.length = (oneSlot 44 (Slot.item (cstr "a") (cstr "x")) 1).items.length ∧
        t'.count = (oneSlot 44 (Slot.item (cstr "a") (cstr "x")) 1).count ∧
        t'.size = (oneSlot 44 (Slot.item (cstr "a") (cstr "x")) 1).size :=
  ⟨by rfl, by rfl, by rfl,
    insert_existing_in_place (oneSlot 44 (Slot.item (cstr "a") (cstr "x")) 1)
      (cstr "a") (cstr "y") (cstr "x") 1 (by rfl)⟩

/-! ## The hash functions -/

/-- C14 at a failing input: for the key `"abcdefghi"` (non-negative character
codes), `a = 127` and `m = 53` the loop of `ht_hash` returns 8, whereas
`(Σ a^(len-1-i) * code(s[i])) mod m` is 52: the power `127^8` has 56 bits and
is not a double, `pow` returns the nearest double, which is smaller by 1. -/
theorem ht_hash_differs_from_spec :
    (∀ c ∈ cstr "abcdefghi", 0 ≤ c) ∧
      (127 : Int) ^ 8 = 67675234241018881 ∧
      pow_long 127 8 = 67675234241018880 ∧
      ht_hash (cstr "abcdefghi") 127 53 = 8 ∧
      hash_spec (cstr "abcdefghi") 127 53 = 52 ∧
      ht_hash (cstr "abcdefghi") 127 53 ≠ hash_spec (cstr "abcdefghi") 127 53 := by
  refine ⟨by decide, by rfl, by rfl, by rfl, by rfl, by decide⟩

/-- For keys of at most 8 characters the powers of 127 are doubles:
`(long)pow(127, n)` is `127^n` for `n <= 7`. -/
theorem pow_long_127_small (n : Nat) (hn : n ≤ 7) : pow_long 127 n = 127 ^ n := by
  interval_cases n <;> rfl

/-- C16 at a failing input: for the key `"first_name"` (length 10) and
`a = 127` the first value of `hash + (long)pow(a, 9) * s[0]` is
`8594754748609397760 * 102`, which exceeds the largest `long` (so does the exact
term `127^9 * 102`); for `a = 181` the power `181^9` is itself outside the range
of `long`, its conversion gives `LONG_MIN`, and the first value
`LONG_MIN * 102` is below the smallest `long`.  The result
`ht_hash ("first_name", 127, 53)` is 4, whereas the formula gives 3.  The first
value for a key of `n + 1` characters `'a'` is `(long)pow(127, n) * 97`, which
is `127^n * 97` up to 8 characters and exceeds the largest `long` at 10
characters: it is not bounded independently of the length. -/
theorem hash_sum_exceeds_long :
    pow_long 127 9 = 8594754748609397760 ∧
      (ht_hash_sums 127 53 (cstr "first_name") 0).head? =
        some (8594754748609397760 * 102) ∧
      LONG_MAX < 8594754748609397760 * 102 ∧
      LONG_MAX < 127 ^ 9 * 102 ∧
      LONG_MAX < 181 ^ 9 ∧
      pow_long 181 9 = -9223372036854775808 ∧
      (ht_hash_sums 181 53 (cstr "first_name") 0).head? =
        some (-9223372036854775808 * 102) ∧
      -9223372036854775808 * 102 < -LONG_MAX - 1 ∧
      ht_hash (cstr "first_name") 127 53 = 4 ∧
      hash_spec (cstr "first_name") 127 53 = 3 ∧
      (∀ n : Nat,
        (ht_hash_sums 127 53 (List.replicate (n + 1) 97) 0).head? =
          some (pow_long 127 n * 97)) ∧
      (∀ n : Nat, n ≤ 7 →
        (ht_hash_sums 127 53 (List.replicate (n + 1) 97) 0).head? = some (127 ^ n * 97)) ∧
      LONG_MAX < pow_long 127 9 * 97 := by
  refine ⟨by rfl, by rfl, by decide, by decide, by decide, by rfl, by rfl, by decide,
    by rfl, by rfl, ?_, ?_, by decide⟩
  · intro n
    simp [List.replicate_succ, ht_hash_sums]
  · intro n hn
    simp [List.replicate_succ, ht_hash_sums, pow_long_127_small n hn]

/-- The recorded values are those of the loop of `ht_hash`: the result of the
loop is the last recorded value, converted to `long` and reduced modulo `m`
(the initial accumulator for the empty string). -/
theorem ht_hash_loop_eq_last_sum (a m : Int) :
    ∀ (s : CString) (hash : Int),
      ht_hash_loop a m s hash =
        ((ht_hash_sums a m s hash).getLast?.map
          (fun x => Int.tmod (wrapLong x) m)).getD hash := by
  intro s
  induction s with
  | nil => intro hash; rfl
  | cons c rest ih =>
    intro hash
    have hadd : wrapLong (hash + wrapLong (pow_long a rest.length * c)) =
        wrapLong (hash + pow_long a rest.length * c) := by
      unfold wrapLong
      norm_num
      omega
    simp only [ht_hash_loop, ht_hash_sums, hadd]
    rw [ih]
    cases hr : ht_hash_sums a m rest
        (Int.tmod (wrapLong (hash + pow_long a rest.length * c)) m) with
    | nil => simp
    | cons x xs =>
      have hl : (x :: xs).getLast? = some ((x :: xs).getLast (by simp)) :=
        List.getLast?_eq_getLast _ _
      simp [hl]

/-! ## Accesses inside the bucket array -/

theorem readSlot_of_range {items : List Slot} {index : Int} (h0 : 0 ≤ index)
    (h1 : index < (items.length : Int)) : ∃ s, readSlot items index = some s := by
  have hlt : index.toNat < items.length := by omega
  exact ⟨items[index.toNat], by simp [readSlot, h0, List.getElem?_eq_getElem hlt]⟩

/-- A write to a bucket that was read keeps every bucket readable. -/
theorem readSlot_writeSlot_some {items : List Slot} {index j : Int} {s x : Slot}
    (h : readSlot items index = some s) (hj : ∃ s', readSlot items j = some s') :
    ∃ s', readSlot (writeSlot items index x) j = some s' := by
  by_cases hji : j = index
  · subst hji
    exact ⟨x, readSlot_writeSlot_same h⟩
  · rw [readSlot_writeSlot_other h hji]
    exact hj

/-- When every probe of `key` reads a bucket of the array, the loop shared by
`ht_insert` and `ht_search` makes no access outside the array. -/
theorem probeStop_in_bounds {key : CString} {ht : ht_hash_table}
    (hread : ∀ i : Nat, ∃ s, readSlot ht.items (ht_get_hash key ht.size i) = some s) :
    ∀ (fuel a : Nat), probeStop key fuel ht a ≠ Outcome.outOfBounds := by
  intro fuel
  induction fuel with
  | zero => intro a; simp [probeStop]
  | succ n ih =>
    intro a
    obtain ⟨s, hs⟩ := hread a
    cases s with
    | empty => simp [probeStop, hs]
    | deleted => simpa [probeStop, hs] using ih (a + 1)
    | item k v =>
      by_cases hk : k = key
      · simp [probeStop, hs, hk]
      · simpa [probeStop, hs, hk] using ih (a + 1)

/-- When every probe of `key` reads a bucket of the array, the loop of
`ht_delete` makes no access outside the array. -/
theorem ht_delete_loop_in_bounds {key : CString} :
    ∀ (fuel : Nat) (ht : ht_hash_table) (a : Nat),
      (∀ i : Nat, ∃ s, readSlot ht.items (ht_get_hash key ht.size i) = some s) →
      ht_delete_loop key fuel ht a ≠ Outcome.outOfBounds := by
  intro fuel
  induction fuel with
  | zero => intro ht a _; simp [ht_delete_loop]
  | succ n ih =>
    intro ht a hread
    obtain ⟨s, hs⟩ := hread a
    cases s with
    | empty => simp [ht_delete_loop, hs]
    | deleted => simpa [ht_delete_loop, hs] using ih ht (a + 1) hread
    | item k v =>
      by_cases hk : k = key
      · simp only [ht_delete_loop, hs, hk, if_true]
        exact ih _ (a + 1) (fun i => readSlot_writeSlot_some hs (hread i))
      · simpa [ht_delete_loop, hs, hk] using ih ht (a + 1) hread

/-! ## Stored keys of reachable tables -/

theorem passes_ne_empty {key : CString} {s : Slot} (h : passes key s) : s ≠ Slot.empty := by
  rintro rfl
  exact h

/-- A write of an item keeps every non-`NULL` bucket non-`NULL`. -/
theorem readSlot_writeSlot_ne_empty {items : List Slot} {index j : Int} {s0 s : Slot}
    {k v : CString} (h : readSlot items index = some s0)
    (hj : readSlot items j = some s) (hs : s ≠ Slot.empty) :
    ∃ s', readSlot (writeSlot items index (Slot.item k v)) j = some s' ∧ s' ≠ Slot.empty := by
  by_cases hji : j = index
  · subst hji
    exact ⟨Slot.item k v, readSlot_writeSlot_same h, by simp⟩
  · rw [readSlot_writeSlot_other h hji]
    exact ⟨s, hj, hs⟩

/-- A deletion keeps every non-`NULL` bucket non-`NULL`. -/
theorem DelRel_ne_empty {key : CString} {items items' : List Slot} {index : Int} {s : Slot}
    (h : DelRel key items items') (hrd : readSlot items index = some s)
    (hs : s ≠ Slot.empty) :
    ∃ s', readSlot items' index = some s' ∧ s' ≠ Slot.empty := by
  rcases h index with h' | ⟨_, hd⟩
  · exact ⟨s, h'.trans hrd, hs⟩
  · exact ⟨Slot.deleted, hd, by simp⟩

/-- Every key stored in a reachable table is met by its own probe walk after
non-`NULL` buckets only. -/
theorem Reachable.walkInv {t : ht_hash_table} (h : Reachable t) : WalkInv t := by
  induction h with
  | new =>
    intro index k v hrd
    have := List.eq_of_mem_replicate (readSlot_mem hrd)
    cases this
  | insert t t' fuel key value _ hins ih =>
    obtain ⟨j0, _, _, hw, hcase⟩ := (ht_insert_loop_done_iff key value fuel t 0 t').mp hins
    have hmain : ∀ s0 : Slot, readSlot t.items (ht_get_hash key t.size j0) = some s0 →
        ¬ passes key s0 → t'.size = t.size →
        t'.items = writeSlot t.items (ht_get_hash key t.size j0) (Slot.item key value) →
        WalkInv t' := by
      intro s0 hs0 hnp hsz hitems index k v hrd
      rw [hitems] at hrd
      rw [hsz, hitems]
      by_cases hx : index = ht_get_hash key t.size j0
      · subst hx
        rw [readSlot_writeSlot_same hs0] at hrd
        cases hrd
        refine ⟨j0, rfl, ?_⟩
        intro i hi
        obtain ⟨s, hs, hp⟩ := hw i (Nat.zero_le i) hi
        exact readSlot_writeSlot_ne_empty hs0 hs (passes_ne_empty hp)
      · rw [readSlot_writeSlot_other hs0 hx] at hrd
        obtain ⟨j, hj, hall⟩ := ih index k v hrd
        refine ⟨j, hj, ?_⟩
        intro i hi
        obtain ⟨s, hs, hne⟩ := hall i hi
        exact readSlot_writeSlot_ne_empty hs0 hs hne
    rcases hcase with ⟨hrd, rfl⟩ | ⟨⟨v0, hrd⟩, rfl⟩
    · exact hmain Slot.empty hrd (by simp [passes]) rfl rfl
    · exact hmain (Slot.item key v0) hrd (by simp [passes]) rfl rfl
  | delete t t' fuel key _ hdel ih =>
    obtain ⟨hsz, _, hrel, _⟩ := ht_delete_loop_done key fuel t 0 t' hdel
    intro index k v hrd
    have hrd' : readSlot t.items index = some (Slot.item k v) := by
      rcases hrel index with h' | ⟨_, hd⟩
      · rw [← h']; exact hrd
      · rw [hd] at hrd; cases hrd
    obtain ⟨j, hj, hall⟩ := ih index k v hrd'
    rw [hsz]
    refine ⟨j, hj, ?_⟩
    intro i hi
    obtain ⟨s, hs, hne⟩ := hall i hi
    exact DelRel_ne_empty hrel hs hne

/-- When the walk of `key` goes past its first `j` buckets and then reads
`NULL`, no bucket of the table holds `key`, provided every stored key is met by
its own walk after non-`NULL` buckets only. -/
theorem absent_of_walk_to_empty {t : ht_hash_table} {key : CString} {j : Nat}
    (hinv : WalkInv t) (hw : Walk key t 0 j)
    (hrd : readSlot t.items (ht_get_hash key t.size j) = some Slot.empty) :
    ∀ (index : Int) (v : CString), readSlot t.items index ≠ some (Slot.item key v) := by
  intro index v hv
  obtain ⟨j', hj', hall⟩ := hinv index key v hv
  rcases Nat.lt_trichotomy j' j with hlt | heq | hgt
  · obtain ⟨s, hs, hp⟩ := hw j' (Nat.zero_le j') hlt
    rw [hj', hv] at hs
    cases hs
    exact hp rfl
  · subst heq
    rw [hj', hv] at hrd
    cases hrd
  · obtain ⟨s, hs, hne⟩ := hall j hgt
    rw [hrd] at hs
    cases hs
    exact hne rfl

/-- The probe at which the loop of `ht_search` stops is determined by the
table. -/
theorem stop_unique {t : ht_hash_table} {key : CString} {j j' : Nat} {s s' : Slot}
    (hw : Walk key t 0 j) (hrd : readSlot t.items (ht_get_hash key t.size j) = some s)
    (hnp : ¬ passes key s) (hw' : Walk key t 0 j')
    (hrd' : readSlot t.items (ht_get_hash key t.size j') = some s')
    (hnp' : ¬ passes key s') : j = j' := by
  rcases Nat.lt_trichotomy j j' with hlt | heq | hgt
  · obtain ⟨s1, hs1, hp1⟩ := hw' j (Nat.zero_le j) hlt
    rw [hrd] at hs1
    cases hs1
    exact absurd hp1 hnp
  · exact heq
  · obtain ⟨s1, hs1, hp1⟩ := hw j' (Nat.zero_le j') hgt
    rw [hrd'] at hs1
    cases hs1
    exact absurd hp1 hnp'

/-- C18 (key uniqueness): in every table reachable from `ht_new ()` by
completed `ht_insert` and `ht_delete` calls, no two buckets hold the same
key. -/
theorem key_unique (t : ht_hash_table) (h : Reachable t) :
    ∀ (i1 i2 : Int) (k v1 v2 : CString),
      readSlot t.items i1 = some (Slot.item k v1) →
      readSlot t.items i2 = some (Slot.item k v2) → i1 = i2 := by
  induction h with
  | new =>
    intro i1 i2 k v1 v2 h1 _
    have := List.eq_of_mem_replicate (readSlot_mem h1)
    cases this
  | insert t t' fuel key value hr hins ih =>
    obtain ⟨j0, _, _, hw, hcase⟩ := (ht_insert_loop_done_iff key value fuel t 0 t').mp hins
    have hmain : ∀ s0 : Slot, readSlot t.items (ht_get_hash key t.size j0) = some s0 →
        t'.items = writeSlot t.items (ht_get_hash key t.size j0) (Slot.item key value) →
        (∀ (i : Int) (v : CString), i ≠ ht_get_hash key t.size j0 →
          readSlot t.items i ≠ some (Slot.item key v)) →
        ∀ (i1 i2 : Int) (k v1 v2 : CString),
          readSlot t'.items i1 = some (Slot.item k v1) →
          readSlot t'.items i2 = some (Slot.item k v2) → i1 = i2 := by
      intro s0 hs0 hitems hother i1 i2 k v1 v2 h1 h2
      rw [hitems] at h1 h2
      by_cases hx1 : i1 = ht_get_hash key t.size j0
      · by_cases hx2 : i2 = ht_get_hash key t.size j0
        · rw [hx1, hx2]
        · subst hx1
          rw [readSlot_writeSlot_same hs0] at h1
          cases h1
          rw [readSlot_writeSlot_other hs0 hx2] at h2
          exact absurd h2 (hother i2 v2 hx2)
      · rw [readSlot_writeSlot_other hs0 hx1] at h1
        by_cases hx2 : i2 = ht_get_hash key t.size j0
        · subst hx2
          rw [readSlot_writeSlot_same hs0] at h2
          cases h2
          exact absurd h1 (hother i1 v1 hx1)
        · rw [readSlot_writeSlot_other hs0 hx2] at h2
          exact ih i1 i2 k v1 v2 h1 h2
    rcases hcase with ⟨hrd, rfl⟩ | ⟨⟨v0, hrd⟩, rfl⟩
    · exact hmain Slot.empty hrd rfl
        (fun i v _ => absent_of_walk_to_empty hr.walkInv hw hrd i v)
    · exact hmain (Slot.item key v0) hrd rfl
        (fun i v hi hv => hi (ih i _ key v v0 hv hrd))
  | delete t t' fuel key _ hdel ih =>
    obtain ⟨_, _, hrel, _⟩ := ht_delete_loop_done key fuel t 0 t' hdel
    have hback : ∀ (i : Int) (k v : CString),
        readSlot t'.items i = some (Slot.item k v) →
        readSlot t.items i = some (Slot.item k v) := by
      intro i k v hrd
      rcases hrel i with h' | ⟨_, hd⟩
      · rw [← h']; exact hrd
      · rw [hd] at hrd; cases hrd
    intro i1 i2 k v1 v2 h1 h2
    exact ih i1 i2 k v1 v2 (hback i1 k v1 h1) (hback i2 k v2 h2)

/-- The table that holds `"a"` in bucket 44 and `","` in bucket 36 is reached
from the fresh table by two inserts. -/
theorem reachable_a_comma :
    Reachable
      (twoSlots 44 (Slot.item (cstr "a") (cstr "x")) 36
        (Slot.item (cstr ",") (cstr "y")) 2) :=
  Reachable.insert (oneSlot 44 (Slot.item (cstr "a") (cstr "x")) 1) _ 2 (cstr ",") (cstr "y")
    (Reachable.insert ht_new _ 1 (cstr "a") (cstr "x") Reachable.new (by rfl))
    (by rfl)

/-- Witness of C18 on the reachable table that holds `"a"` in bucket 44 and
`","` in bucket 36: each key is held by one bucket only. -/
theorem key_unique_witness :
    readSlot
        (twoSlots 44 (Slot.item (cstr "a") (cstr "x")) 36
          (Slot.item (cstr ",") (cstr "y")) 2).items 44 =
        some (Slot.item (cstr "a") (cstr "x")) ∧
      readSlot
        (twoSlots 44 (Slot.item (cstr "a") (cstr "x")) 36
          (Slot.item (cstr ",") (cstr "y")) 2).items 36 =
        some (Slot.item (cstr ",") (cstr "y")) ∧
      ∀ (i1 i2 : Int) (k v1 v2 : CString),
        readSlot
            (twoSlots 44 (Slot.item (cstr "a") (cstr "x")) 36
              (Slot.item (cstr ",") (cstr "y")) 2).items i1 = some (Slot.item k v1) →
        readSlot
            (twoSlots 44 (Slot.item (cstr "a") (cstr "x")) 36
              (Slot.item (cstr ",") (cstr "y")) 2).items i2 = some (Slot.item k v2) →
        i1 = i2 :=
  ⟨by rfl, by rfl,
    key_unique
      (twoSlots 44 (Slot.item (cstr "a") (cstr "x")) 36 (Slot.item (cstr ",") (cstr "y")) 2)
      reachable_a_comma⟩

/-- C17 (insertion does not disturb other keys): for every table reachable
from `ht_new ()` by completed `ht_insert` and `ht_delete` calls and all keys
`K != K2`, if `ht_insert (t, K, V)` completes, then whenever `ht_search (K2)`
returns on `t` and on the resulting table, it returns the same thing. -/
theorem insert_keeps_other_search (t t' : ht_hash_table) (K K2 V : CString)
    (fuel f1 f2 : Nat) (r1 r2 : Option CString) (hr : Reachable t) (hne : K ≠ K2)
    (hins : ht_insert fuel t K V = Outcome.done t')
    (h1 : ht_search f1 t K2 = Outcome.done r1)
    (h2 : ht_search f2 t' K2 = Outcome.done r2) : r2 = r1 := by
  obtain ⟨j0, _, _, hw0, hcase⟩ := (ht_insert_loop_done_iff K V fuel t 0 t').mp hins
  obtain ⟨j1, _, _, hw1, hcase1⟩ := (ht_search_loop_done_iff K2 f1 t 0 r1).mp h1
  obtain ⟨j2, _, _, hw2, hcase2⟩ := (ht_search_loop_done_iff K2 f2 t' 0 r2).mp h2
  have hmain : ∀ s0 : Slot, readSlot t.items (ht_get_hash K t.size j0) = some s0 →
      ¬ passes K s0 → t'.size = t.size →
      t'.items = writeSlot t.items (ht_get_hash K t.size j0) (Slot.item K V) →
      r2 = r1 := by
    intro s0 hs0 hnp0 hsz hitems
    rw [hsz, hitems] at hcase2
    have hw2' : ∀ i : Nat, i < j2 → ∃ s,
        readSlot (writeSlot t.items (ht_get_hash K t.size j0) (Slot.item K V))
          (ht_get_hash K2 t.size i) = some s ∧ passes K2 s := by
      intro i hi
      have := hw2 i (Nat.zero_le i) hi
      rw [hsz, hitems] at this
      exact this
    rcases hcase1 with ⟨hrd1, rfl⟩ | ⟨v1, hrd1, rfl⟩
    · rcases hcase2 with ⟨_, rfl⟩ | ⟨v2, hrd2, rfl⟩
      · rfl
      · exfalso
        by_cases hx : ht_get_hash K2 t.size j2 = ht_get_hash K t.size j0
        · rw [hx, readSlot_writeSlot_same hs0] at hrd2
          cases hrd2
          exact hne rfl
        · rw [readSlot_writeSlot_other hs0 hx] at hrd2
          exact absent_of_walk_to_empty hr.walkInv hw1 hrd1 _ v2 hrd2
    · have hx1 : ht_get_hash K2 t.size j1 ≠ ht_get_hash K t.size j0 := by
        intro he
        rw [he, hs0] at hrd1
        cases hrd1
        exact hnp0 (fun h => hne h.symm)
      have hw1' : Walk K2
          { t with items := writeSlot t.items (ht_get_hash K t.size j0) (Slot.item K V) }
          0 j1 := by
        intro i _ hi
        obtain ⟨s, hs, hp⟩ := hw1 i (Nat.zero_le i) hi
        by_cases hx : ht_get_hash K2 t.size i = ht_get_hash K t.size j0
        · refine ⟨Slot.item K V, ?_, hne⟩
          show readSlot (writeSlot t.items _ _) (ht_get_hash K2 t.size i) = _
          rw [hx]
          exact readSlot_writeSlot_same hs0
        · refine ⟨s, ?_, hp⟩
          show readSlot (writeSlot t.items _ _) (ht_get_hash K2 t.size i) = _
          rw [readSlot_writeSlot_other hs0 hx]
          exact hs
      have hrd1' : readSlot
          (writeSlot t.items (ht_get_hash K t.size j0) (Slot.item K V))
          (ht_get_hash K2 t.size j1) = some (Slot.item K2 v1) := by
        rw [readSlot_writeSlot_other hs0 hx1]
        exact hrd1
      have hw2'' : Walk K2
          { t with items := writeSlot t.items (ht_get_hash K t.size j0) (Slot.item K V) }
          0 j2 := fun i _ hi => hw2' i hi
      rcases hcase2 with ⟨hrd2, rfl⟩ | ⟨v2, hrd2, rfl⟩
      · have hj : j2 = j1 :=
          stop_unique hw2'' hrd2 (by simp [passes]) hw1' hrd1' (by simp [passes])
        subst hj
        rw [hrd1'] at hrd2
        cases hrd2
      · have hj : j2 = j1 :=
          stop_unique hw2'' hrd2 (by simp [passes]) hw1' hrd1' (by simp [passes])
        subst hj
        rw [hrd1'] at hrd2
        cases hrd2
        rfl
  rcases hcase with ⟨hrd, rfl⟩ | ⟨⟨v0, hrd⟩, rfl⟩
  · exact hmain Slot.empty hrd (by simp [passes]) rfl rfl
  · exact hmain (Slot.item K v0) hrd (by simp [passes]) rfl rfl

/-- Witness of C17: with `"a"` in bucket 44 (a reachable table), inserting
`","`, which collides with it and goes to bucket 36, leaves the search for
`"a"` with the result `"x"`. -/
theorem insert_keeps_other_search_witness :
    Reachable (oneSlot 44 (Slot.item (cstr "a") (cstr "x")) 1) ∧
      cstr "," ≠ cstr "a" ∧
      ht_insert 2 (oneSlot 44 (Slot.item (cstr "a") (cstr "x")) 1) (cstr ",") (cstr "y") =
        Outcome.done
          (twoSlots 44 (Slot.item (cstr "a") (cstr "x")) 36
            (Slot.item (cstr ",") (cstr "y")) 2) ∧
      ht_search 1 (oneSlot 44 (Slot.item (cstr "a") (cstr "x")) 1) (cstr "a") =
        Outcome.done (some (cstr "x")) ∧
      ht_search 1
          (twoSlots 44 (Slot.item (cstr "a") (cstr "x")) 36
            (Slot.item (cstr ",") (cstr "y")) 2) (cstr "a") =
        Outcome.done (some (cstr "x")) ∧
      some (cstr "x") = some (cstr "x") :=
  ⟨Reachable.insert ht_new _ 1 (cstr "a") (cstr "x") Reachable.new (by rfl),
    by decide, by rfl, by rfl, by rfl,
    insert_keeps_other_search (oneSlot 44 (Slot.item (cstr "a") (cstr "x")) 1)
      (twoSlots 44 (Slot.item (cstr "a") (cstr "x")) 36 (Slot.item (cstr ",") (cstr "y")) 2)
      (cstr ",") (cstr "a") (cstr "y") 2 1 1 (some (cstr "x")) (some (cstr "x"))
      (Reachable.insert ht_new _ 1 (cstr "a") (cstr "x") Reachable.new (by rfl))
      (by decide) (by rfl) (by rfl) (by rfl)⟩

/-- The reachability of the table in C17 is needed: in the table that holds
`","` in bucket 36 only (its second probe, the first one, bucket 44, being
`NULL`), the search for `","` returns `NULL`; after `ht_insert ("a", "x")`,
which fills bucket 44, it returns `"y"`. -/
theorem insert_changes_search_unreachable :
    ht_search 1 (oneSlot 36 (Slot.item (cstr ",") (cstr "y")) 1) (cstr ",") =
        Outcome.done none ∧
      ht_insert 1 (oneSlot 36 (Slot.item (cstr ",") (cstr "y")) 1) (cstr "a") (cstr "x") =
        Outcome.done
          (twoSlots 36 (Slot.item (cstr ",") (cstr "y")) 44
            (Slot.item (cstr "a") (cstr "x")) 2) ∧
      ht_search 2
          (twoSlots 36 (Slot.item (cstr ",") (cstr "y")) 44
            (Slot.item (cstr "a") (cstr "x")) 2) (cstr ",") =
        Outcome.done (some (cstr "y")) := by
  refine ⟨by rfl, by rfl, by rfl⟩

/-! ## Probe sequences that visit every bucket -/

/-- The shape of `ht_get_hash` for 53 buckets, a key whose two hashes are in
`[0, 53)` and an attempt below 53: no `int` operation overflows and the probe
index is the mathematical remainder. -/
theorem ht_get_hash_53 (key : CString)
    (h1 : 0 ≤ ht_hash key HT_PRIME_1 53 ∧ ht_hash key HT_PRIME_1 53 < 53)
    (h2 : 0 ≤ ht_hash key HT_PRIME_2 53 ∧ ht_hash key HT_PRIME_2 53 < 53)
    (n : Nat) (hn : n < 53) :
    ht_get_hash key 53 (n : Int) =
      (ht_hash key HT_PRIME_1 53 + (n : Int) * (ht_hash key HT_PRIME_2 53 + 1)) % 53 := by
  have hprod : 0 ≤ (n : Int) * (ht_hash key HT_PRIME_2 53 + 1) ∧
      (n : Int) * (ht_hash key HT_PRIME_2 53 + 1) ≤ 52 * 53 := by
    have hn0 : (0 : Int) ≤ (n : Int) := Int.ofNat_nonneg n
    have hn1 : (n : Int) ≤ 52 := by omega
    constructor
    · exact mul_nonneg hn0 (by omega)
    · exact mul_le_mul hn1 (by omega) (by omega) (by omega)
  have e1 : wrapInt (ht_hash key HT_PRIME_2 53 + 1) = ht_hash key HT_PRIME_2 53 + 1 :=
    wrapInt_of_range (by omega) (by omega)
  have e2 : wrapInt (n : Int) = n := wrapInt_of_range (by omega) (by omega)
  have e3 : wrapInt ((n : Int) * (ht_hash key HT_PRIME_2 53 + 1)) =
      (n : Int) * (ht_hash key HT_PRIME_2 53 + 1) :=
    wrapInt_of_range (by omega) (by omega)
  have e4 : wrapInt
      (ht_hash key HT_PRIME_1 53 + (n : Int) * (ht_hash key HT_PRIME_2 53 + 1)) =
      ht_hash key HT_PRIME_1 53 + (n : Int) * (ht_hash key HT_PRIME_2 53 + 1) :=
    wrapInt_of_range (by omega) (by omega)
  unfold ht_get_hash
  simp only [e1, e2, e3, e4]
  rw [Int.tmod_eq_emod (by omega) (by decide)]

/-- For 53 buckets and a key whose first hash is in `[0, 53)` and whose second
hash is in `[0, 52)`, two attempts below 53 with the same probe index are
equal. -/
theorem ht_get_hash_injective (key : CString)
    (h1 : 0 ≤ ht_hash key HT_PRIME_1 53 ∧ ht_hash key HT_PRIME_1 53 < 53)
    (h2 : 0 ≤ ht_hash key HT_PRIME_2 53 ∧ ht_hash key HT_PRIME_2 53 < 52)
    (i j : Nat) (hi : i < 53) (hj : j < 53)
    (h : ht_get_hash key 53 (i : Int) = ht_get_hash key 53 (j : Int)) : i = j := by
  rw [ht_get_hash_53 key h1 ⟨h2.1, by omega⟩ i hi,
    ht_get_hash_53 key h1 ⟨h2.1, by omega⟩ j hj] at h
  have hdvd : (53 : Int) ∣
      (ht_hash key HT_PRIME_1 53 + (j : Int) * (ht_hash key HT_PRIME_2 53 + 1)) -
        (ht_hash key HT_PRIME_1 53 + (i : Int) * (ht_hash key HT_PRIME_2 53 + 1)) :=
    Int.ModEq.dvd h
  have hmul : (53 : Int) ∣ ((j : Int) - (i : Int)) * (ht_hash key HT_PRIME_2 53 + 1) := by
    have he : ((j : Int) - (i : Int)) * (ht_hash key HT_PRIME_2 53 + 1) =
        (ht_hash key HT_PRIME_1 53 + (j : Int) * (ht_hash key HT_PRIME_2 53 + 1)) -
          (ht_hash key HT_PRIME_1 53 + (i : Int) * (ht_hash key HT_PRIME_2 53 + 1)) := by
      ring
    rw [he]
    exact hdvd
  have hp : Prime (53 : Int) := by
    rw [Int.prime_iff_natAbs_prime]
    norm_num
  rcases hp.dvd_or_dvd hmul with hd | hd
  · omega
  · omega

/-- Under the same conditions every probe index of an attempt below 53 is a
bucket number. -/
theorem ht_get_hash_53_range (key : CString)
    (h1 : 0 ≤ ht_hash key HT_PRIME_1 53 ∧ ht_hash key HT_PRIME_1 53 < 53)
    (h2 : 0 ≤ ht_hash key HT_PRIME_2 53 ∧ ht_hash key HT_PRIME_2 53 < 53)
    (n : Nat) (hn : n < 53) :
    0 ≤ ht_get_hash key 53 (n : Int) ∧ ht_get_hash key 53 (n : Int) < 53 := by
  rw [ht_get_hash_53 key h1 h2 n hn]
  exact ⟨Int.emod_nonneg _ (by decide), Int.emod_lt_of_pos _ (by decide)⟩

/-- For 53 buckets and a key whose first hash is in `[0, 53)` and whose second
hash is in `[0, 52)`, every bucket is the probe index of some attempt below
53. -/
theorem ht_get_hash_surjective (key : CString)
    (h1 : 0 ≤ ht_hash key HT_PRIME_1 53 ∧ ht_hash key HT_PRIME_1 53 < 53)
    (h2 : 0 ≤ ht_hash key HT_PRIME_2 53 ∧ ht_hash key HT_PRIME_2 53 < 52)
    (b : Int) (hb0 : 0 ≤ b) (hb1 : b < 53) :
    ∃ i : Nat, i < 53 ∧ ht_get_hash key 53 (i : Int) = b := by
  have h2' : 0 ≤ ht_hash key HT_PRIME_2 53 ∧ ht_hash key HT_PRIME_2 53 < 53 :=
    ⟨h2.1, by omega⟩
  have hrange : ∀ n : Fin 53, (ht_get_hash key 53 ((n : Nat) : Int)).toNat < 53 := by
    intro n
    obtain ⟨h0, h1'⟩ := ht_get_hash_53_range key h1 h2' n n.isLt
    omega
  let f : Fin 53 → Fin 53 := fun i => ⟨(ht_get_hash key 53 ((i : Nat) : Int)).toNat, hrange i⟩
  have hinj : Function.Injective f := by
    intro x y hxy
    have hval : (ht_get_hash key 53 ((x : Nat) : Int)).toNat =
        (ht_get_hash key 53 ((y : Nat) : Int)).toNat := congrArg Fin.val hxy
    obtain ⟨hx0, _⟩ := ht_get_hash_53_range key h1 h2' x x.isLt
    obtain ⟨hy0, _⟩ := ht_get_hash_53_range key h1 h2' y y.isLt
    apply Fin.ext
    exact ht_get_hash_injective key h1 h2 x y x.isLt y.isLt (by omega)
  have hsurj : Function.Surjective f := Finite.injective_iff_surjective.mp hinj
  obtain ⟨i, hi⟩ := hsurj ⟨b.toNat, by omega⟩
  refine ⟨i, i.isLt, ?_⟩
  have hval : (ht_get_hash key 53 ((i : Nat) : Int)).toNat = b.toNat := congrArg Fin.val hi
  obtain ⟨h0, _⟩ := ht_get_hash_53_range key h1 h2' i i.isLt
  omega

/-- When the probes of `key` up to attempt `i0` read buckets of the array and
probe `i0` reads `NULL`, the probe loop stops within `i0 + 1` reads. -/
theorem probeStop_done_of_empty {key : CString} {ht : ht_hash_table} {i0 : Nat}
    (hread : ∀ i : Nat, i ≤ i0 →
      ∃ s, readSlot ht.items (ht_get_hash key ht.size i) = some s)
    (hemp : readSlot ht.items (ht_get_hash key ht.size i0) = some Slot.empty) :
    ∀ (fuel a : Nat), a ≤ i0 → i0 < a + fuel →
      ∃ res, probeStop key fuel ht a = Outcome.done res := by
  intro fuel
  induction fuel with
  | zero => intro a h1 h2; omega
  | succ n ih =>
    intro a h1 h2
    have hnext : ∀ s : Slot, readSlot ht.items (ht_get_hash key ht.size a) = some s →
        s ≠ Slot.empty → ∃ res, probeStop key n ht (a + 1) = Outcome.done res := by
      intro s hs hne
      have hai : a ≠ i0 := by
        rintro rfl
        rw [hemp] at hs
        cases hs
        exact hne rfl
      exact ih (a + 1) (by omega) (by omega)
    obtain ⟨s, hs⟩ := hread a h1
    cases s with
    | empty => exact ⟨(ht_get_hash key ht.size a, Slot.empty), by simp [probeStop, hs]⟩
    | deleted =>
      obtain ⟨res, hres⟩ := hnext _ hs (by simp)
      exact ⟨res, by simp [probeStop, hs, hres]⟩
    | item k v =>
      by_cases hk : k = key
      · exact ⟨(ht_get_hash key ht.size a, Slot.item k v), by simp [probeStop, hs, hk]⟩
      · obtain ⟨res, hres⟩ := hnext _ hs (by simp)
        exact ⟨res, by simp [probeStop, hs, hk, hres]⟩

/-- When the probes of `key` up to attempt `i0` read buckets of the array and
probe `i0` reads `NULL`, the loop of `ht_delete` stops within `i0 + 1` reads. -/
theorem ht_delete_loop_done_of_empty {key : CString} {i0 : Nat} :
    ∀ (fuel : Nat) (ht : ht_hash_table) (a : Nat),
      (∀ i : Nat, i ≤ i0 → ∃ s, readSlot ht.items (ht_get_hash key ht.size i) = some s) →
      readSlot ht.items (ht_get_hash key ht.size i0) = some Slot.empty →
      a ≤ i0 → i0 < a + fuel →
      ∃ ht', ht_delete_loop key fuel ht a = Outcome.done ht' := by
  intro fuel
  induction fuel with
  | zero => intro ht a _ _ h1 h2; omega
  | succ n ih =>
    intro ht a hread hemp h1 h2
    have hai : ∀ s : Slot, readSlot ht.items (ht_get_hash key ht.size a) = some s →
        s ≠ Slot.empty → a ≠ i0 := by
      rintro s hs hne rfl
      rw [hemp] at hs
      cases hs
      exact hne rfl
    obtain ⟨s, hs⟩ := hread a h1
    cases s with
    | empty =>
      exact ⟨{ ht with count := wrapInt (ht.count - 1) }, by simp [ht_delete_loop, hs]⟩
    | deleted =>
      have := hai _ hs (by simp)
      obtain ⟨ht', h'⟩ := ih ht (a + 1) hread hemp (by omega) (by omega)
      exact ⟨ht', by simp [ht_delete_loop, hs, h']⟩
    | item k v =>
      have hne := hai _ hs (by simp)
      by_cases hk : k = key
      · have hidx : ht_get_hash key ht.size i0 ≠ ht_get_hash key ht.size a := by
          intro he
          rw [he, hs] at hemp
          cases hemp
        obtain ⟨ht', h'⟩ := ih
          { ht with items := writeSlot ht.items (ht_get_hash key ht.size a) Slot.deleted }
          (a + 1) (fun i hi => readSlot_writeSlot_some hs (hread i hi))
          (by
            show readSlot (writeSlot ht.items _ _) (ht_get_hash key ht.size i0) = _
            rw [readSlot_writeSlot_other hs hidx]
            exact hemp)
          (by omega) (by omega)
        exact ⟨ht', by simp [ht_delete_loop, hs, hk, h']⟩
      · obtain ⟨ht', h'⟩ := ih ht (a + 1) hread hemp (by omega) (by omega)
        exact ⟨ht', by simp [ht_delete_loop, hs, hk, h']⟩

/-- Where full-cycle probing holds: for 53 buckets and every key whose first
hash is in `[0, 53)` and whose second hash is in `[0, 52)`, the probe indices of
attempts 0..52 are pairwise distinct and each bucket is the probe index of
exactly one of these attempts; hence on every table with 53 buckets, one of
them `NULL`, `ht_search`, `ht_insert` and `ht_delete` for such a key return
within 53 bucket reads. -/
theorem full_cycle_of_small_hashes (key : CString)
    (h1 : 0 ≤ ht_hash key HT_PRIME_1 53 ∧ ht_hash key HT_PRIME_1 53 < 53)
    (h2 : 0 ≤ ht_hash key HT_PRIME_2 53 ∧ ht_hash key HT_PRIME_2 53 < 52) :
    (∀ i j : Nat, i < 53 → j < 53 →
        ht_get_hash key 53 (i : Int) = ht_get_hash key 53 (j : Int) → i = j) ∧
      (∀ b : Int, 0 ≤ b → b < 53 →
        ∃! i : Nat, i < 53 ∧ ht_get_hash key 53 (i : Int) = b) ∧
      ∀ (t : ht_hash_table) (value : CString),
        t.size = 53 → t.items.length = 53 → Slot.empty ∈ t.items →
        (∃ r, ht_search 53 t key = Outcome.done r) ∧
        (∃ t', ht_insert 53 t key value = Outcome.done t') ∧
        (∃ t', ht_delete 53 t key = Outcome.done t') := by
  refine ⟨fun i j hi hj h => ht_get_hash_injective key h1 h2 i j hi hj h, ?_, ?_⟩
  · intro b hb0 hb1
    obtain ⟨i, hi, hib⟩ := ht_get_hash_surjective key h1 h2 b hb0 hb1
    refine ⟨i, ⟨hi, hib⟩, ?_⟩
    rintro j ⟨hj, hjb⟩
    exact ht_get_hash_injective key h1 h2 j i hj hi (hjb.trans hib.symm)
  · intro t value hsz hlen hmem
    obtain ⟨n, hn⟩ := List.mem_iff_getElem?.mp hmem
    have hn53 : n < 53 := by
      by_contra hc
      rw [List.getElem?_eq_none (by omega)] at hn
      cases hn
    obtain ⟨i0, hi0, hidx⟩ :=
      ht_get_hash_surjective key h1 h2 (n : Int) (Int.ofNat_nonneg n) (by omega)
    have hemp : readSlot t.items (ht_get_hash key t.size (i0 : Int)) = some Slot.empty := by
      rw [hsz, hidx, readSlot_natCast]
      exact hn
    have hfirst : ∃ i1 : Nat, i1 < 53 ∧
        readSlot t.items (ht_get_hash key t.size (i1 : Int)) = some Slot.empty ∧
        ∀ i : Nat, i ≤ i1 →
          ∃ s, readSlot t.items (ht_get_hash key t.size (i : Int)) = some s := by
      refine ⟨i0, hi0, hemp, ?_⟩
      intro i hi
      rw [hsz]
      obtain ⟨h0, h1'⟩ := ht_get_hash_53_range key h1 ⟨h2.1, by omega⟩ i (by omega)
      exact readSlot_of_range h0 (by omega)
    obtain ⟨i1, hi1, hemp1, hread1⟩ := hfirst
    obtain ⟨res, hres⟩ := probeStop_done_of_empty hread1 hemp1 53 0 (Nat.zero_le _) (by omega)
    obtain ⟨index, s⟩ := res
    refine ⟨?_, ?_,
      ht_delete_loop_done_of_empty 53 t 0 hread1 hemp1 (Nat.zero_le _) (by omega)⟩
    · unfold ht_search
      rw [ht_search_loop_eq, hres]
      cases s <;> exact ⟨_, rfl⟩
    · unfold ht_insert
      rw [ht_insert_loop_eq, hres]
      cases s <;> exact ⟨_, rfl⟩

/-- C19 at a failing input: for the one-character key with code -1 (the byte
`0xFF` as a signed `char`) and 53 buckets the second hash is -1, not 52, yet
the step `hash_b + 1` is 0 and the probe indices of attempts 0 and 1 are both
-1; on the fresh table, where every bucket is `NULL`, the three operations
then access `items[-1]`. -/
theorem full_cycle_fails_negative_code :
    ht_hash [-1] HT_PRIME_2 53 = -1 ∧ ht_hash [-1] HT_PRIME_2 53 ≠ 52 ∧
      ht_get_hash [-1] 53 0 = -1 ∧ ht_get_hash [-1] 53 1 = -1 ∧
      ¬ (∀ i j : Nat, i < 53 → j < 53 →
          ht_get_hash [-1] 53 (i : Int) = ht_get_hash [-1] 53 (j : Int) → i = j) ∧
      Slot.empty ∈ ht_new.items ∧
      ht_search 53 ht_new [-1] = Outcome.outOfBounds ∧
      ht_insert 53 ht_new [-1] (cstr "x") = Outcome.outOfBounds ∧
      ht_delete 53 ht_new [-1] = Outcome.outOfBounds := by
  refine ⟨by rfl, by decide, by rfl, by rfl, ?_, by decide, by rfl, by rfl, by rfl⟩
  intro h
  have := h 0 1 (by decide) (by decide) (by rfl)
  omega

/-! ## Buckets are never given back -/

/-- C20 (slots are never reclaimed): a completed `ht_insert` or `ht_delete`
(one whose bucket accesses all stay inside the array) leaves every non-`NULL`
bucket non-`NULL` and every bucket holding the sentinel unchanged; `ht_insert`
does not raise the number of `NULL` buckets and lowers it by exactly one when
no bucket holds the key; `ht_delete` keeps that number. -/
theorem slots_never_reclaimed (t t' : ht_hash_table) (K V : CString) (fuel : Nat) :
    (ht_insert fuel t K V = Outcome.done t' →
        (∀ (index : Int) (s : Slot), readSlot t.items index = some s → s ≠ Slot.empty →
          ∃ s', readSlot t'.items index = some s' ∧ s' ≠ Slot.empty) ∧
        (∀ index : Int, readSlot t.items index = some Slot.deleted →
          readSlot t'.items index = some Slot.deleted) ∧
        emptyCount t'.items ≤ emptyCount t.items ∧
        ((∀ s ∈ t.items, holdsKey K s = false) →
          emptyCount t'.items + 1 = emptyCount t.items)) ∧
      (ht_delete fuel t K = Outcome.done t' →
        (∀ (index : Int) (s : Slot), readSlot t.items index = some s → s ≠ Slot.empty →
          ∃ s', readSlot t'.items index = some s' ∧ s' ≠ Slot.empty) ∧
        (∀ index : Int, readSlot t.items index = some Slot.deleted →
          readSlot t'.items index = some Slot.deleted) ∧
        emptyCount t'.items = emptyCount t.items) := by
  constructor
  · intro hins
    obtain ⟨j0, _, _, _, hcase⟩ := (ht_insert_loop_done_iff K V fuel t 0 t').mp hins
    have hmain : ∀ s0 : Slot, readSlot t.items (ht_get_hash K t.size j0) = some s0 →
        s0 ≠ Slot.deleted →
        t'.items = writeSlot t.items (ht_get_hash K t.size j0) (Slot.item K V) →
        (∀ (index : Int) (s : Slot), readSlot t.items index = some s → s ≠ Slot.empty →
          ∃ s', readSlot t'.items index = some s' ∧ s' ≠ Slot.empty) ∧
        (∀ index : Int, readSlot t.items index = some Slot.deleted →
          readSlot t'.items index = some Slot.deleted) ∧
        emptyCount t'.items + (if s0 = Slot.empty then 1 else 0) = emptyCount t.items := by
      intro s0 hs0 hnd hitems
      rw [hitems]
      refine ⟨fun index s hs hne => readSlot_writeSlot_ne_empty hs0 hs hne, ?_,
        emptyCount_writeSlot hs0 (by simp)⟩
      intro index hd
      have hx : index ≠ ht_get_hash K t.size j0 := by
        rintro rfl
        rw [hs0] at hd
        cases hd
        exact hnd rfl
      rw [readSlot_writeSlot_other hs0 hx]
      exact hd
    rcases hcase with ⟨hrd, rfl⟩ | ⟨⟨v0, hrd⟩, rfl⟩
    · obtain ⟨h1, h2, h3⟩ := hmain Slot.empty hrd (by simp) rfl
      simp only [if_true] at h3
      exact ⟨h1, h2, le_of_lt (Nat.lt_of_succ_le (le_of_eq h3)), fun _ => h3⟩
    · obtain ⟨h1, h2, h3⟩ := hmain (Slot.item K v0) hrd (by simp) rfl
      simp only [reduceCtorEq, if_false, add_zero] at h3
      refine ⟨h1, h2, le_of_eq h3, ?_⟩
      intro habs
      have := habs _ (readSlot_mem hrd)
      simp [holdsKey] at this
  · intro hdel
    obtain ⟨_, _, hrel, _⟩ := ht_delete_loop_done K fuel t 0 t' hdel
    refine ⟨fun index s hs hne => DelRel_ne_empty hrel hs hne, ?_,
      ht_delete_loop_emptyCount K fuel t 0 t' hdel⟩
    intro index hd
    rcases hrel index with h' | ⟨_, hd'⟩
    · rw [h']; exact hd
    · exact hd'

/-- Witness of C20 on insert, delete and insert of `"a"`: the deletion keeps
the 52 `NULL` buckets, and the insert that follows walks past the sentinel in
bucket 44, keeps it, and leaves 51 `NULL` buckets. -/
theorem slots_never_reclaimed_witness :
    ht_delete 2 (oneSlot 44 (Slot.item (cstr "a") (cstr "x")) 1) (cstr "a") =
        Outcome.done (oneSlot 44 Slot.deleted 0) ∧
      ht_insert 2 (oneSlot 44 Slot.deleted 0) (cstr "a") (cstr "y") =
        Outcome.done (twoSlots 44 Slot.deleted 36 (Slot.item (cstr "a") (cstr "y")) 1) ∧
      emptyCount (oneSlot 44 (Slot.item (cstr "a") (cstr "x")) 1).items = 52 ∧
      emptyCount (oneSlot 44 Slot.deleted 0).items = 52 ∧
      emptyCount
          (twoSlots 44 Slot.deleted 36 (Slot.item (cstr "a") (cstr "y")) 1).items = 51 ∧
      emptyCount (oneSlot 44 Slot.deleted 0).items =
        emptyCount (oneSlot 44 (Slot.item (cstr "a") (cstr "x")) 1).items ∧
      emptyCount
            (twoSlots 44 Slot.deleted 36 (Slot.item (cstr "a") (cstr "y")) 1).items + 1 =
        emptyCount (oneSlot 44 Slot.deleted 0).items ∧
      (∀ index : Int, readSlot (oneSlot 44 Slot.deleted 0).items index = some Slot.deleted →
        readSlot
            (twoSlots 44 Slot.deleted 36 (Slot.item (cstr "a") (cstr "y")) 1).items
            index = some Slot.deleted) :=
  ⟨by rfl, by rfl, by rfl, by rfl, by rfl,
    ((slots_never_reclaimed (oneSlot 44 (Slot.item (cstr "a") (cstr "x")) 1)
      (oneSlot 44 Slot.deleted 0) (cstr "a") (cstr "y") 2).2 (by rfl)).2.2,
    ((slots_never_reclaimed (oneSlot 44 Slot.deleted 0)
      (twoSlots 44 Slot.deleted 36 (Slot.item (cstr "a") (cstr "y")) 1)
      (cstr "a") (cstr "y") 2).1 (by rfl)).2.2.2 (by decide),
    ((slots_never_reclaimed (oneSlot 44 Slot.deleted 0)
      (twoSlots 44 Slot.deleted 36 (Slot.item (cstr "a") (cstr "y")) 1)
      (cstr "a") (cstr "y") 2).1 (by rfl)).2.1⟩

end HashTable
